import Mathlib

/-!
# Verification of `dsaquant.c++`

A shallow embedding of the three algorithmic primitives of `src/dsaquant.c++`
(the fixed-window volatility estimate, the price-ordered order book and the
trading-window scan) and of the `Stock` class and `analyzePairs` that feed
them, together with the theorems about them.

Modelling conventions.

* `double` values are elements of an arbitrary linearly ordered field `α`
  (for instance `ℚ`, on which every definition below evaluates, or `ℝ`).
  Arithmetic is therefore exact: rounding, overflow to infinity and NaN are not
  part of the model.  `sqrt` is not a field operation, so the code that calls
  it takes it as a parameter.
* `std::vector<T>` is `List T`; `v[i]` is a fallible read (`v[i]?`), so that a
  run that would index out of bounds yields `none`.
* `int` counters that range over indices are `Nat`; the one place where an
  `int` is converted to `size_t` keeps the conversion explicit.
-/

namespace DsaQuant

/-! ## Order book -/

/-- One price level of a book side: `pair<double, int>` (price, quantity). -/
abbrev Level (α : Type) := α × Int

/-- The two private members of `class OrderBook`. -/
structure OrderBook (α : Type) where
  bids : List (Level α)
  asks : List (Level α)
deriving DecidableEq, Repr

/-- The book a default-constructed `OrderBook` holds: both sides empty. -/
def OrderBook.empty {α : Type} : OrderBook α := ⟨[], []⟩

/-- The descending-price ordering of a bid sequence: every level's price is at
least the price of every later level. -/
def BidsSorted {α : Type} [LinearOrder α] (bids : List (Level α)) : Prop :=
  bids.Pairwise (fun a b => b.1 ≤ a.1)

instance {α : Type} [LinearOrder α] (bids : List (Level α)) : Decidable (BidsSorted bids) := by
  unfold BidsSorted; infer_instance

/-- The `while (left < right)` loop of `OrderBook::addBid` (lines 68-76), on the
loop variables `left`, `right`, `pos`.  The first argument bounds the number of
iterations; `none` is returned when the bound is exhausted with the loop
condition still true, or when `bids[mid]` is read out of bounds. -/
def addBidLoop {α : Type} [LinearOrder α] (bids : List (Level α)) (price : α) :
    Nat → Nat → Nat → Nat → Option Nat
  | 0, left, right, pos => if left < right then none else some pos
  | fuel + 1, left, right, pos =>
    if left < right then
      let mid := left + (right - left) / 2
      match bids[mid]? with
      | none => none
      | some b =>
        if b.1 > price then addBidLoop bids price fuel (mid + 1) right pos
        else addBidLoop bids price fuel left mid mid
    else some pos

/-- The insertion index `pos` that `OrderBook::addBid` computes (lines 67-76):
`left = 0`, `right = pos = bids.size()`, then the loop.  The interval
`right - left` shrinks at every iteration, so `bids.size()` iterations are
allowed. -/
def addBidPos {α : Type} [LinearOrder α] (bids : List (Level α)) (price : α) : Option Nat :=
  addBidLoop bids price bids.length 0 bids.length bids.length

/-- The call `v.insert(v.begin() + pos, x)`: defined for `pos ≤ v.size()` only. -/
def vectorInsert {β : Type} (v : List β) (pos : Nat) (x : β) : Option (List β) :=
  if pos ≤ v.length then some (v.insertIdx pos x) else none

/-- The method `OrderBook::addBid` (lines 65-78). -/
def addBid {α : Type} [LinearOrder α] (book : OrderBook α) (price : α) (quantity : Int) :
    Option (OrderBook α) := do
  let pos ← addBidPos book.bids price
  let bids ← vectorInsert book.bids pos (price, quantity)
  pure { book with bids := bids }

/-- A run of `addBid` calls, one per element of `orders`, in order. -/
def addBids {α : Type} [LinearOrder α] (book : OrderBook α) (orders : List (Level α)) :
    Option (OrderBook α) :=
  orders.foldlM (fun b o => addBid b o.1 o.2) book

/-- The two values `OrderBook::printTop` writes (lines 80-83): the top bid
price and the top ask price, each `0` when its side is empty.  Index 0 is read
only in the non-empty branch. -/
def printTop {α : Type} [Zero α] (book : OrderBook α) : Option (α × α) := do
  let topBid ← if book.bids.isEmpty then some 0 else book.bids[0]?.map Prod.fst
  let topAsk ← if book.asks.isEmpty then some 0 else book.asks[0]?.map Prod.fst
  pure (topBid, topAsk)

/-! ## Volatility -/

/-- The function `std::max(a, b)`: `b` when `a < b`, and `a` otherwise. -/
def stdMax {α : Type} [LinearOrder α] (a b : α) : α := if a < b then b else a

/-- The largest value of an `int` (32 bits). -/
def INT_MAX : Int := 2147483647

/-- The value an `int` takes when it is converted to `size_t` (64 bits), as
happens to `windowSize` in the comparison `returns.size() < windowSize`. -/
def toSizeT (n : Int) : Int := n % 2 ^ 64

/-- The locals of `calculateRollingVolatility` after line 54. -/
structure WindowStats (α : Type) where
  sum : α
  sqSum : α
  mean : α
  variance : α
deriving DecidableEq, Repr

/-- The `for (int i = 0; i < windowSize; i++)` loop of
`calculateRollingVolatility` (lines 48-51), on the loop variables `i`, `sum`,
`sqSum`.  The first argument bounds the number of iterations; `none` is
returned when the bound is exhausted with the loop condition still true, or
when `returns[i]` is read out of bounds. -/
def windowLoop {α : Type} [LinearOrderedField α] (returns : List α) (windowSize : Int) :
    Nat → Nat → α → α → Option (α × α)
  | 0, i, sum, sqSum => if (i : Int) < windowSize then none else some (sum, sqSum)
  | fuel + 1, i, sum, sqSum =>
    if (i : Int) < windowSize then
      match returns[i]? with
      | none => none
      | some x => windowLoop returns windowSize fuel (i + 1) (sum + x) (sqSum + x * x)
    else some (sum, sqSum)

/-- Lines 44-54 of `calculateRollingVolatility`: the two sums over the window,
then `mean` and `variance`.  The loop counter runs from `0` to `windowSize`, so
`windowSize` iterations are allowed. -/
def windowStats {α : Type} [LinearOrderedField α] (returns : List α) (windowSize : Int) :
    Option (WindowStats α) :=
  match windowLoop returns windowSize windowSize.toNat 0 0 0 with
  | none => none
  | some (sum, sqSum) =>
    let mean := sum / (windowSize : α)
    let variance := sqSum / (windowSize : α) - mean * mean
    some ⟨sum, sqSum, mean, variance⟩

/-- The function `calculateRollingVolatility` (lines 41-56).  `sqrt` stands for
the library function of that name. -/
def calculateRollingVolatility {α : Type} [LinearOrderedField α] (sqrt : α → α) (returns : List α)
    (windowSize : Int) : Option α :=
  if (returns.length : Int) < toSizeT windowSize then some 0
  else (windowStats returns windowSize).map (fun st => sqrt (stdMax st.variance 0))

/-! ## Trading window -/

/-- The locals of `findBestTradingWindow` together with its two result
references `entry` and `exit`. -/
structure ScanState (α : Type) where
  maxProfit : α
  currentProfit : α
  currentStart : Nat
  entry : Nat
  exit : Nat
deriving DecidableEq, Repr

/-- The state of `findBestTradingWindow` before its loop (lines 88-91). -/
def ScanState.init {α : Type} [Zero α] : ScanState α := ⟨0, 0, 0, 0, 0⟩

/-- One iteration of the loop of `findBestTradingWindow` (lines 94-105), at
index `i` with `x = spread[i]`. -/
def scanStep {α : Type} [LinearOrderedField α] (s : ScanState α) (i : Nat) (x : α) :
    ScanState α :=
  let currentProfit := s.currentProfit + x
  let s1 : ScanState α :=
    if currentProfit < 0 then { s with currentProfit := 0, currentStart := i + 1 }
    else { s with currentProfit := currentProfit }
  if s1.currentProfit > s1.maxProfit then
    { s1 with maxProfit := s1.currentProfit, entry := s1.currentStart, exit := i }
  else s1

/-- The `for (int i = 0; i < spread.size(); i++)` loop of
`findBestTradingWindow` (lines 93-106).  The first argument bounds the number of
iterations; `none` is returned when the bound is exhausted with the loop
condition still true, or when `spread[i]` is read out of bounds. -/
def scanLoop {α : Type} [LinearOrderedField α] (spread : List α) :
    Nat → Nat → ScanState α → Option (ScanState α)
  | 0, i, s => if i < spread.length then none else some s
  | fuel + 1, i, s =>
    if i < spread.length then
      match spread[i]? with
      | none => none
      | some x => scanLoop spread fuel (i + 1) (scanStep s i x)
    else some s

/-- The function `findBestTradingWindow` (lines 87-107); the result is the pair
`(entry, exit)` it leaves in its two reference parameters.  The loop counter
runs from `0` to `spread.size()`, so `spread.size()` iterations are allowed. -/
def findBestTradingWindow {α : Type} [LinearOrderedField α] (spread : List α) :
    Option (Nat × Nat) :=
  (scanLoop spread spread.length 0 ScanState.init).map (fun s => (s.entry, s.exit))

/-- The cumulative sum of `spread[a..b]`, both ends inclusive. -/
def rangeSum {α : Type} [LinearOrderedField α] (spread : List α) (a b : Nat) : α :=
  ((spread.drop a).take (b + 1 - a)).sum

/-- The sum of the first `k` elements of `spread`. -/
def prefixSum {α : Type} [LinearOrderedField α] (spread : List α) (k : Nat) : α :=
  (spread.take k).sum

/-- The loop invariant of `findBestTradingWindow` before the iteration at index
`i`, written with prefix sums: the running sum is the sum of
`spread[currentStart..i-1]`, is non-negative and bounds every sum of a range
ending at `i - 1`; the best sum bounds every sum of a range within the first
`i` elements; and the recorded pair is either the initial `(0, 0)` with best
sum `0`, or a range within the first `i` elements whose sum is the best sum,
which is positive. -/
structure ScanInv {α : Type} [LinearOrderedField α] (spread : List α) (i : Nat)
    (s : ScanState α) : Prop where
  start_le : s.currentStart ≤ i
  current_eq : s.currentProfit = prefixSum spread i - prefixSum spread s.currentStart
  current_ge : ∀ j, j ≤ i → prefixSum spread i - prefixSum spread j ≤ s.currentProfit
  best_ge : ∀ a b, a ≤ b → b ≤ i → prefixSum spread b - prefixSum spread a ≤ s.maxProfit
  recorded : (s.maxProfit = 0 ∧ s.entry = 0 ∧ s.exit = 0) ∨
    (s.entry ≤ s.exit ∧ s.exit < i ∧ 0 < s.maxProfit ∧
      s.maxProfit = prefixSum spread (s.exit + 1) - prefixSum spread s.entry)

/-! ## Stocks and pairs analysis -/

/-- The data members of `class Stock`.  `volatility` is left uninitialised by
the constructor, which `none` stands for. -/
structure Stock (α : Type) where
  ticker : String
  currentPrice : α
  priceHistory : List α
  returns : List α
  volatility : Option α
deriving DecidableEq, Repr

/-- The constructor `Stock::Stock(t, initialPrice)` (lines 20-22). -/
def Stock.new {α : Type} (t : String) (initialPrice : α) : Stock α :=
  ⟨t, initialPrice, [initialPrice], [], none⟩

/-- The method `Stock::addPriceUpdate` (lines 24-30). -/
def Stock.addPriceUpdate {α : Type} [LinearOrderedField α] (s : Stock α) (newPrice : α) :
    Stock α :=
  let dailyReturn := (newPrice - s.currentPrice) / s.currentPrice
  { s with returns := s.returns ++ [dailyReturn], currentPrice := newPrice,
           priceHistory := s.priceHistory ++ [newPrice] }

/-- A stock built by the constructor followed by one `addPriceUpdate` call per
element of `updates`, in order. -/
def Stock.build {α : Type} [LinearOrderedField α] (t : String) (initialPrice : α)
    (updates : List α) : Stock α :=
  updates.foldl Stock.addPriceUpdate (Stock.new t initialPrice)

/-- The spread loop of `analyzePairs` (lines 117-120), on the counter `i` and
the vector `spread` built so far.  The first argument bounds the number of
iterations; `none` is returned when the bound is exhausted with the loop
condition still true, or when a return is read out of bounds. -/
def spreadLoop {α : Type} [LinearOrderedField α] (returns1 returns2 : List α) :
    Nat → Nat → List α → Option (List α)
  | 0, i, spread => if i < returns1.length then none else some spread
  | fuel + 1, i, spread =>
    if i < returns1.length then
      match returns1[i]?, returns2[i]? with
      | some a, some b => spreadLoop returns1 returns2 fuel (i + 1) (spread ++ [a - b])
      | _, _ => none
    else some spread

/-- What a call of `analyzePairs` does: it stops at the length check, or it
prints a report from the values listed. -/
inductive PairsOutcome (α : Type) where
  | mismatch : PairsOutcome α
  | report (entryDay exitDay : Nat) (entryPrice1 entryPrice2 exitPrice1 exitPrice2 : α)
      (profit annualized : α) : PairsOutcome α
deriving DecidableEq, Repr

/-- The function `analyzePairs` (lines 110-143).  `none` is an out-of-bounds
read of a return or of a price history. -/
def analyzePairs {α : Type} [LinearOrderedField α] (stock1 stock2 : Stock α) (_windowSize : Int) :
    Option (PairsOutcome α) :=
  if stock1.returns.length ≠ stock2.returns.length then some PairsOutcome.mismatch
  else do
    let spread ← spreadLoop stock1.returns stock2.returns stock1.returns.length 0 []
    let (entryDay, exitDay) ← findBestTradingWindow spread
    let entryPrice1 ← stock1.priceHistory[entryDay]?
    let entryPrice2 ← stock2.priceHistory[entryDay]?
    let exitPrice1 ← stock1.priceHistory[exitDay]?
    let exitPrice2 ← stock2.priceHistory[exitDay]?
    let profit := (exitPrice2 - entryPrice2) - (exitPrice1 - entryPrice1)
    pure (PairsOutcome.report entryDay exitDay entryPrice1 entryPrice2 exitPrice1 exitPrice2
      profit ((profit / |entryPrice1 + entryPrice2|) * 252))

/-! ## Volatility: the population standard deviation, in the spec's words -/

/-- The arithmetic mean of the first `w` elements. -/
def specMean {α : Type} [LinearOrderedField α] (returns : List α) (w : Nat) : α :=
  (returns.take w).sum / (w : α)

/-- The mean of the squares of the first `w` elements. -/
def specMeanSquare {α : Type} [LinearOrderedField α] (returns : List α) (w : Nat) : α :=
  ((returns.take w).map (fun x => x * x)).sum / (w : α)

/-- The mean squared deviation of the first `w` elements from their mean: the
population variance. -/
def specMeanSquaredDeviation {α : Type} [LinearOrderedField α] (returns : List α) (w : Nat) : α :=
  (1 / (w : α)) * ((returns.take w).map (fun x => (x - specMean returns w) ^ 2)).sum

/-! ## Order book: the binary search -/

/-- The loop invariant of the binary search on a sorted bid sequence: with
every level left of `left` priced above `price` and every level from `right`
on priced at most `price`, the loop returns a position `pos` between `left`
and `right` that splits the sequence in the same way. -/
theorem addBidLoop_sorted {α : Type} [LinearOrder α] (bids : List (Level α)) (price : α)
    (hs : BidsSorted bids) :
    ∀ (fuel left right : Nat), left ≤ right → right ≤ bids.length → right - left ≤ fuel →
      (∀ i (h : i < bids.length), i < left → price < (bids[i]).1) →
      (∀ i (h : i < bids.length), right ≤ i → (bids[i]).1 ≤ price) →
      ∃ pos, addBidLoop bids price fuel left right right = some pos ∧ left ≤ pos ∧ pos ≤ right ∧
        (∀ i (h : i < bids.length), i < pos → price < (bids[i]).1) ∧
        (∀ i (h : i < bids.length), pos ≤ i → (bids[i]).1 ≤ price) := by
  intro fuel
  induction fuel with
  | zero =>
    intro left right hlr _ hf hlo hhi
    have : ¬ left < right := by omega
    exact ⟨right, by simp [addBidLoop, this], hlr, le_refl _, fun i h hi => hlo i h (by omega), hhi⟩
  | succ n ih =>
    intro left right hlr hrl hf hlo hhi
    by_cases hlt : left < right
    · have hmid : left + (right - left) / 2 < bids.length := by omega
      have hget : bids[left + (right - left) / 2]? = some (bids[left + (right - left) / 2]) :=
        List.getElem?_eq_getElem hmid
      by_cases hgt : price < (bids[left + (right - left) / 2]).1
      · have hlo2 : ∀ i (h : i < bids.length), i < left + (right - left) / 2 + 1 →
            price < (bids[i]).1 := by
          intro i h hi
          rcases Nat.lt_or_ge i (left + (right - left) / 2) with hlt2 | hge2
          · have := (List.pairwise_iff_getElem.mp hs) i (left + (right - left) / 2) h hmid hlt2
            exact lt_of_lt_of_le hgt this
          · have : i = left + (right - left) / 2 := by omega
            subst this; exact hgt
        obtain ⟨pos, hpos, h1, h2, h3, h4⟩ :=
          ih (left + (right - left) / 2 + 1) right (by omega) hrl (by omega) hlo2 hhi
        refine ⟨pos, ?_, by omega, h2, h3, h4⟩
        rw [addBidLoop]
        simp only [hlt, if_true, hget, gt_iff_lt, hgt]
        exact hpos
      · have hle : (bids[left + (right - left) / 2]).1 ≤ price := not_lt.mp hgt
        have hhi2 : ∀ i (h : i < bids.length), left + (right - left) / 2 ≤ i →
            (bids[i]).1 ≤ price := by
          intro i h hi
          rcases Nat.eq_or_lt_of_le hi with heq | hlt2
          · subst heq; exact hle
          · have := (List.pairwise_iff_getElem.mp hs) (left + (right - left) / 2) i hmid h hlt2
            exact le_trans this hle
        obtain ⟨pos, hpos, h1, h2, h3, h4⟩ :=
          ih left (left + (right - left) / 2) (by omega) (by omega) (by omega) hlo hhi2
        refine ⟨pos, ?_, h1, by omega, h3, h4⟩
        rw [addBidLoop]
        simp only [hlt, if_true, hget, gt_iff_lt, hgt, if_false]
        exact hpos
    · exact ⟨right, by simp [addBidLoop, hlt], hlr, le_refl _,
        fun i h hi => hlo i h (by omega), hhi⟩

/-- On a sorted bid sequence the search returns a position that separates the
levels priced above `price` (before it) from those priced at most `price`
(from it on). -/
theorem addBidPos_sorted {α : Type} [LinearOrder α] (bids : List (Level α)) (price : α)
    (hs : BidsSorted bids) :
    ∃ pos, addBidPos bids price = some pos ∧ pos ≤ bids.length ∧
      (∀ b ∈ bids.take pos, price < b.1) ∧ (∀ b ∈ bids.drop pos, b.1 ≤ price) := by
  obtain ⟨pos, hpos, _, h2, h3, h4⟩ :=
    addBidLoop_sorted bids price hs bids.length 0 bids.length (Nat.zero_le _) (le_refl _)
      (by omega) (fun i _ hi => absurd hi (Nat.not_lt_zero i)) (fun i h hi => by omega)
  refine ⟨pos, hpos, h2, ?_, ?_⟩
  · intro b hb
    obtain ⟨i, hi, rfl⟩ := List.mem_iff_getElem.mp hb
    rw [List.length_take] at hi
    rw [List.getElem_take]
    exact h3 i (by omega) (by omega)
  · intro b hb
    obtain ⟨i, hi, rfl⟩ := List.mem_iff_getElem.mp hb
    rw [List.length_drop] at hi
    rw [List.getElem_drop]
    exact h4 (pos + i) (by omega) (by omega)

/-- Inserting at an index within bounds splits the sequence around the new
element. -/
theorem insertIdx_eq_take_drop {β : Type} (x : β) :
    ∀ (n : Nat) (l : List β), n ≤ l.length → l.insertIdx n x = l.take n ++ x :: l.drop n
  | 0, _, _ => rfl
  | _ + 1, [], h => absurd h (by simp)
  | n + 1, a :: l, h => by
    simp only [List.insertIdx_succ_cons, List.take_succ_cons, List.drop_succ_cons, List.cons_append]
    rw [insertIdx_eq_take_drop x n l (by simpa using h)]

/-- What one `addBid` does to a sorted book: the search succeeds with a
position `pos` within bounds, the new level is spliced in at `pos`, every
level before it is priced above the new price and every level after it at most
the new price. -/
theorem addBid_sorted_spec {α : Type} [LinearOrder α] (book : OrderBook α) (price : α)
    (quantity : Int) (hs : BidsSorted book.bids) :
    ∃ pos, addBidPos book.bids price = some pos ∧ pos ≤ book.bids.length ∧
      addBid book price quantity =
        some ⟨book.bids.take pos ++ (price, quantity) :: book.bids.drop pos, book.asks⟩ ∧
      (∀ b ∈ book.bids.take pos, price < b.1) ∧ (∀ b ∈ book.bids.drop pos, b.1 ≤ price) := by
  obtain ⟨pos, hpos, hle, hlo, hhi⟩ := addBidPos_sorted book.bids price hs
  refine ⟨pos, hpos, hle, ?_, hlo, hhi⟩
  simp [addBid, hpos, vectorInsert, hle, insertIdx_eq_take_drop (price, quantity) pos book.bids hle]

/-- Splicing a level between the part priced above it and the part priced at
most it keeps a sorted sequence sorted. -/
theorem sorted_splice {α : Type} [LinearOrder α] (bids : List (Level α)) (pos : Nat)
    (x : Level α) (hs : BidsSorted bids) (hlo : ∀ b ∈ bids.take pos, x.1 < b.1)
    (hhi : ∀ b ∈ bids.drop pos, b.1 ≤ x.1) :
    BidsSorted (bids.take pos ++ x :: bids.drop pos) := by
  have hsplit : BidsSorted (bids.take pos ++ bids.drop pos) := by
    rw [List.take_append_drop]; exact hs
  unfold BidsSorted at hsplit ⊢
  rw [List.pairwise_append] at hsplit ⊢
  obtain ⟨h1, h2, h3⟩ := hsplit
  refine ⟨h1, List.pairwise_cons.mpr ⟨hhi, h2⟩, ?_⟩
  intro a ha b hb
  rcases List.mem_cons.mp hb with rfl | hb
  · exact le_of_lt (hlo a ha)
  · exact h3 a ha b hb

/-- On a sorted bid sequence the search returns the number of levels priced
strictly above the new price. -/
theorem addBidPos_sorted_eq_countP {α : Type} [LinearOrder α] (bids : List (Level α)) (price : α)
    (hs : BidsSorted bids) :
    addBidPos bids price = some (bids.countP (fun b => decide (price < b.1))) := by
  obtain ⟨pos, hpos, hle, hlo, hhi⟩ := addBidPos_sorted bids price hs
  rw [hpos]
  congr 1
  conv_rhs => rw [← List.take_append_drop pos bids]
  rw [List.countP_append]
  have h1 : (bids.take pos).countP (fun b => decide (price < b.1)) = (bids.take pos).length := by
    rw [List.countP_eq_length]
    intro b hb
    simpa using hlo b hb
  have h2 : (bids.drop pos).countP (fun b => decide (price < b.1)) = 0 := by
    rw [List.countP_eq_zero]
    intro b hb
    simpa using hhi b hb
  rw [h1, h2, List.length_take]
  omega

/-- A run of `addBid` calls on a sorted book returns a book whose bid sequence
is sorted and is a rearrangement of the old levels together with the new ones;
the ask sequence is untouched. -/
theorem addBids_sorted_perm {α : Type} [LinearOrder α] (orders : List (Level α)) :
    ∀ (book : OrderBook α), BidsSorted book.bids →
      ∃ book', addBids book orders = some book' ∧ BidsSorted book'.bids ∧
        book'.bids.Perm (orders ++ book.bids) ∧ book'.asks = book.asks := by
  induction orders with
  | nil =>
    intro book hs
    exact ⟨book, by simp [addBids], hs, List.Perm.refl _, rfl⟩
  | cons o rest ih =>
    intro book hs
    obtain ⟨pos, _, _, hadd, hlo, hhi⟩ := addBid_sorted_spec book o.1 o.2 hs
    have hs1 := sorted_splice book.bids pos (o.1, o.2) hs hlo hhi
    obtain ⟨book', hrun, hs', hperm, hasks⟩ :=
      ih ⟨book.bids.take pos ++ (o.1, o.2) :: book.bids.drop pos, book.asks⟩ hs1
    refine ⟨book', ?_, hs', ?_, hasks⟩
    · simp only [addBids] at hrun ⊢
      rw [List.foldlM_cons, hadd]
      exact hrun
    · refine hperm.trans ?_
      have h1 : (book.bids.take pos ++ (o.1, o.2) :: book.bids.drop pos).Perm (o :: book.bids) := by
        have := @List.perm_middle _ o (book.bids.take pos) (book.bids.drop pos)
        rwa [List.take_append_drop] at this
      exact (List.Perm.append_left rest h1).trans (by simp)

/-! ## Order book: the claims -/

/-- C1: `addBid` preserves the descending-price ordering.  On every book whose
bid sequence is sorted by price in non-increasing order, `addBid(p, q)` returns
and the bid sequence of the resulting book is again sorted in non-increasing
order. -/
theorem addBid_preserves_sorted {α : Type} [LinearOrder α] (book : OrderBook α) (p : α)
    (q : Int) (hs : BidsSorted book.bids) :
    ∃ book', addBid book p q = some book' ∧ BidsSorted book'.bids := by
  obtain ⟨pos, _, _, hadd, hlo, hhi⟩ := addBid_sorted_spec book p q hs
  exact ⟨_, hadd, sorted_splice book.bids pos (p, q) hs hlo hhi⟩

/-- Witness of C1 on the sorted book with bids `[(5, 1), (3, 2)]` and the new
level `(4, 7)`. -/
theorem addBid_preserves_sorted_witness :
    BidsSorted (⟨[(5, 1), (3, 2)], []⟩ : OrderBook ℚ).bids ∧
      ∃ book', addBid (⟨[(5, 1), (3, 2)], []⟩ : OrderBook ℚ) 4 7 = some book' ∧
        BidsSorted book'.bids :=
  ⟨by norm_num [BidsSorted], addBid_preserves_sorted ⟨[(5, 1), (3, 2)], []⟩ 4 7 (by norm_num [BidsSorted])⟩

/-- C2: on a sorted bid sequence the index `pos` at which `addBid(p, q)`
inserts the new level is the least index whose existing price is not greater
than `p`, or `bids.size()` when there is none: every level before `pos` is
priced above `p`, the level at `pos` (if any) is priced at most `p`, `pos` is
the first index found by a left-to-right search for a price `≤ p`, and `pos`
equals the number of existing levels priced strictly above `p`. -/
theorem addBid_insertion_index {α : Type} [LinearOrder α] (book : OrderBook α) (p : α)
    (q : Int) (hs : BidsSorted book.bids) :
    ∃ pos, addBidPos book.bids p = some pos ∧
      addBid book p q = some ⟨book.bids.insertIdx pos (p, q), book.asks⟩ ∧
      pos ≤ book.bids.length ∧
      (∀ i (h : i < book.bids.length), i < pos → ¬ (book.bids[i]).1 ≤ p) ∧
      (∀ h : pos < book.bids.length, (book.bids[pos]).1 ≤ p) ∧
      pos = book.bids.findIdx (fun b => decide (b.1 ≤ p)) ∧
      pos = book.bids.countP (fun b => decide (p < b.1)) := by
  obtain ⟨pos, hpos, hle, hadd, hlo, hhi⟩ := addBid_sorted_spec book p q hs
  have hbefore : ∀ i (h : i < book.bids.length), i < pos → ¬ (book.bids[i]).1 ≤ p := by
    intro i h hi
    have hmem : book.bids[i] ∈ book.bids.take pos := by
      rw [List.mem_iff_getElem]
      exact ⟨i, by rw [List.length_take]; omega, by rw [List.getElem_take]⟩
    exact not_le.mpr (hlo _ hmem)
  have hat : ∀ h : pos < book.bids.length, (book.bids[pos]).1 ≤ p := by
    intro h
    have hmem : book.bids[pos] ∈ book.bids.drop pos := by
      rw [List.mem_iff_getElem]
      exact ⟨0, by rw [List.length_drop]; omega, by rw [List.getElem_drop]; rfl⟩
    exact hhi _ hmem
  refine ⟨pos, hpos, ?_, hle, hbefore, hat, ?_, ?_⟩
  · rw [hadd, insertIdx_eq_take_drop (p, q) pos book.bids hle]
  · rcases Nat.lt_or_ge pos book.bids.length with hlt | hge
    · symm
      rw [List.findIdx_eq hlt]
      refine ⟨by simpa using hat hlt, ?_⟩
      intro j hj
      simpa using hbefore j (by omega) hj
    · have hpl : pos = book.bids.length := by omega
      rw [hpl]; symm
      rw [List.findIdx_eq_length]
      intro x hx
      obtain ⟨i, hi, rfl⟩ := List.mem_iff_getElem.mp hx
      simpa using hbefore i hi (by omega)
  · conv_rhs => rw [← List.take_append_drop pos book.bids]
    rw [List.countP_append]
    have h1 : (book.bids.take pos).countP (fun b => decide (p < b.1)) = (book.bids.take pos).length := by
      rw [List.countP_eq_length]
      intro b hb
      simpa using hlo b hb
    have h2 : (book.bids.drop pos).countP (fun b => decide (p < b.1)) = 0 := by
      rw [List.countP_eq_zero]
      intro b hb
      simpa using hhi b hb
    rw [h1, h2, List.length_take]
    omega

/-- Witness of C2 on the sorted book with bids `[(5, 1), (3, 2)]` and the new
level `(4, 7)`. -/
theorem addBid_insertion_index_witness :
    BidsSorted (⟨[(5, 1), (3, 2)], []⟩ : OrderBook ℚ).bids ∧
      ∃ pos, addBidPos (⟨[(5, 1), (3, 2)], []⟩ : OrderBook ℚ).bids 4 = some pos ∧
      addBid (⟨[(5, 1), (3, 2)], []⟩ : OrderBook ℚ) 4 7 =
        some ⟨(⟨[(5, 1), (3, 2)], []⟩ : OrderBook ℚ).bids.insertIdx pos (4, 7),
          (⟨[(5, 1), (3, 2)], []⟩ : OrderBook ℚ).asks⟩ ∧
      pos ≤ (⟨[(5, 1), (3, 2)], []⟩ : OrderBook ℚ).bids.length ∧
      (∀ i (h : i < (⟨[(5, 1), (3, 2)], []⟩ : OrderBook ℚ).bids.length), i < pos →
        ¬ ((⟨[(5, 1), (3, 2)], []⟩ : OrderBook ℚ).bids[i]).1 ≤ 4) ∧
      (∀ h : pos < (⟨[(5, 1), (3, 2)], []⟩ : OrderBook ℚ).bids.length,
        ((⟨[(5, 1), (3, 2)], []⟩ : OrderBook ℚ).bids[pos]).1 ≤ 4) ∧
      pos = (⟨[(5, 1), (3, 2)], []⟩ : OrderBook ℚ).bids.findIdx (fun b => decide (b.1 ≤ 4)) ∧
      pos = (⟨[(5, 1), (3, 2)], []⟩ : OrderBook ℚ).bids.countP (fun b => decide (4 < b.1)) :=
  ⟨by norm_num [BidsSorted], addBid_insertion_index ⟨[(5, 1), (3, 2)], []⟩ 4 7 (by norm_num [BidsSorted])⟩

/-- C3: equal-priced bids are ordered last-in-first.  On a sorted book, after
`addBid(p, q1)` followed by `addBid(p, q2)` the level `(p, q2)` sits at some
index `k` and the level `(p, q1)` at index `k + 1`, the rest of the sequence
being the old one; and a single `addBid(p, q)` places the new level after
levels of other prices only and directly before the first existing level of
price `p` whenever there is one. -/
theorem addBid_equal_price_last_in_first {α : Type} [LinearOrder α] (book : OrderBook α) (p : α)
    (q1 q2 : Int) (hs : BidsSorted book.bids) :
    (∃ k book2, (addBid book p q1).bind (fun b => addBid b p q2) = some book2 ∧
        book2.bids = book.bids.take k ++ (p, q2) :: (p, q1) :: book.bids.drop k ∧
        book2.bids[k]? = some (p, q2) ∧ book2.bids[k + 1]? = some (p, q1)) ∧
    (∃ k book1, addBid book p q1 = some book1 ∧
        book1.bids = book.bids.take k ++ (p, q1) :: book.bids.drop k ∧
        (∀ b ∈ book.bids.take k, b.1 ≠ p) ∧
        (∀ b ∈ book.bids, b.1 = p → ∃ b0 rest, book.bids.drop k = b0 :: rest ∧ b0.1 = p)) := by
  obtain ⟨k, hk, hle, hadd, hlo, hhi⟩ := addBid_sorted_spec book p q1 hs
  have hs1 := sorted_splice book.bids k (p, q1) hs hlo hhi
  have hkc : k = book.bids.countP (fun b => decide (p < b.1)) := by
    have := addBidPos_sorted_eq_countP book.bids p hs
    rw [hk] at this
    exact Option.some.inj this
  have hlen : (book.bids.take k).length = k := by rw [List.length_take]; omega
  constructor
  · obtain ⟨k2, hk2, _, hadd2, _, _⟩ :=
      addBid_sorted_spec ⟨book.bids.take k ++ (p, q1) :: book.bids.drop k, book.asks⟩ p q2 hs1
    have hk2c : k2 = k := by
      have := addBidPos_sorted_eq_countP (book.bids.take k ++ (p, q1) :: book.bids.drop k) p hs1
      rw [hk2] at this
      have h2 := Option.some.inj this
      rw [h2, List.countP_append, List.countP_cons]
      conv_rhs => rw [hkc, ← List.take_append_drop k book.bids, List.countP_append]
      simp
    subst hk2c
    have htake : (book.bids.take k2 ++ (p, q1) :: book.bids.drop k2).take k2 = book.bids.take k2 := by
      rw [List.take_append_of_le_length (by omega), List.take_take, Nat.min_self]
    have hdrop : (book.bids.take k2 ++ (p, q1) :: book.bids.drop k2).drop k2 =
        (p, q1) :: book.bids.drop k2 := by
      rw [List.drop_append_eq_append_drop, hlen, Nat.sub_self, List.drop_zero,
        List.drop_eq_nil_of_le (by omega), List.nil_append]
    refine ⟨k2, ⟨book.bids.take k2 ++ (p, q2) :: (p, q1) :: book.bids.drop k2, book.asks⟩,
      ?_, rfl, ?_, ?_⟩
    · rw [hadd, Option.some_bind, hadd2]
      simp only [htake, hdrop]
    · rw [List.getElem?_append_right (by omega)]
      simp [hlen]
    · rw [List.getElem?_append_right (by omega)]
      simp [hlen]
  · refine ⟨k, _, hadd, rfl, fun b hb => ne_of_gt (hlo b hb), ?_⟩
    intro b hb hbp
    have hbd : b ∈ book.bids.drop k := by
      rw [← List.take_append_drop k book.bids, List.mem_append] at hb
      rcases hb with hb | hb
      · exact absurd hbp (ne_of_gt (hlo b hb))
      · exact hb
    cases hd : book.bids.drop k with
    | nil => rw [hd] at hbd; exact absurd hbd (List.not_mem_nil _)
    | cons b0 rest =>
      refine ⟨b0, rest, rfl, le_antisymm (hhi b0 (by rw [hd]; exact List.mem_cons_self _ _)) ?_⟩
      have hsd : BidsSorted (book.bids.drop k) := List.Pairwise.sublist (List.drop_sublist _ _) hs
      rw [hd] at hbd hsd
      rcases List.mem_cons.mp hbd with rfl | hbr
      · exact le_of_eq hbp.symm
      · have := (List.pairwise_cons.mp hsd).1 b hbr
        rw [hbp] at this
        exact this

/-- Witness of C3 on the sorted book with bids `[(5, 1), (4, 2), (3, 3)]`: two
bids at price `4` are added. -/
theorem addBid_equal_price_last_in_first_witness :
    BidsSorted (⟨[(5, 1), (4, 2), (3, 3)], []⟩ : OrderBook ℚ).bids ∧
    ((addBid (⟨[(5, 1), (4, 2), (3, 3)], []⟩ : OrderBook ℚ) 4 10).bind (fun b => addBid b 4 20)).map
      (fun b => b.bids) = some [(5, 1), (4, 20), (4, 10), (4, 2), (3, 3)] ∧
    ((∃ k book2, (addBid (⟨[(5, 1), (4, 2), (3, 3)], []⟩ : OrderBook ℚ) 4 10).bind
          (fun b => addBid b 4 20) = some book2 ∧
        book2.bids = (⟨[(5, 1), (4, 2), (3, 3)], []⟩ : OrderBook ℚ).bids.take k ++
          (4, 20) :: (4, 10) :: (⟨[(5, 1), (4, 2), (3, 3)], []⟩ : OrderBook ℚ).bids.drop k ∧
        book2.bids[k]? = some (4, 20) ∧ book2.bids[k + 1]? = some (4, 10)) ∧
    (∃ k book1, addBid (⟨[(5, 1), (4, 2), (3, 3)], []⟩ : OrderBook ℚ) 4 10 = some book1 ∧
        book1.bids = (⟨[(5, 1), (4, 2), (3, 3)], []⟩ : OrderBook ℚ).bids.take k ++
          (4, 10) :: (⟨[(5, 1), (4, 2), (3, 3)], []⟩ : OrderBook ℚ).bids.drop k ∧
        (∀ b ∈ (⟨[(5, 1), (4, 2), (3, 3)], []⟩ : OrderBook ℚ).bids.take k, b.1 ≠ 4) ∧
        (∀ b ∈ (⟨[(5, 1), (4, 2), (3, 3)], []⟩ : OrderBook ℚ).bids, b.1 = 4 →
          ∃ b0 rest, (⟨[(5, 1), (4, 2), (3, 3)], []⟩ : OrderBook ℚ).bids.drop k = b0 :: rest ∧
            b0.1 = 4))) :=
  ⟨by norm_num [BidsSorted],
   by norm_num [addBid, addBidPos, addBidLoop, vectorInsert],
   addBid_equal_price_last_in_first ⟨[(5, 1), (4, 2), (3, 3)], []⟩ 4 10 20
     (by norm_num [BidsSorted])⟩

/-- C4: starting from an empty book, after `addBid(18000.50, 100)`,
`addBid(18000.25, 150)`, `addBid(18001.00, 75)` in that order, the bid sequence
is exactly `[(18001.00, 75), (18000.50, 100), (18000.25, 150)]` (and the ask
sequence is still empty). -/
theorem addBid_demo_sequence :
    addBids (OrderBook.empty : OrderBook ℚ) [(18000.50, 100), (18000.25, 150), (18001.00, 75)] =
      some ⟨[(18001.00, 75), (18000.50, 100), (18000.25, 150)], []⟩ := by
  norm_num [addBids, addBid, addBidPos, addBidLoop, vectorInsert, OrderBook.empty]

/-- C5: the best bid is at index 0.  For every non-empty sequence of `addBid`
calls applied to an empty book, all calls return, and the top-bid price that
`printTop` reports on the resulting book (the price at `bids[0]`) is the
maximum of all the prices that were inserted: it is one of them and no
inserted price exceeds it. -/
theorem printTop_reports_max_bid {α : Type} [LinearOrder α] [Zero α] (orders : List (Level α))
    (hne : orders ≠ []) :
    ∃ book r, addBids (OrderBook.empty : OrderBook α) orders = some book ∧
      printTop book = some r ∧
      book.bids[0]?.map Prod.fst = some r.1 ∧
      (orders.map Prod.fst).maximum = (r.1 : WithBot α) ∧
      (∃ o ∈ orders, o.1 = r.1) ∧ (∀ o ∈ orders, o.1 ≤ r.1) := by
  obtain ⟨book, hrun, hs, hperm, hasks⟩ :=
    addBids_sorted_perm orders (OrderBook.empty : OrderBook α) List.Pairwise.nil
  simp only [OrderBook.empty, List.append_nil] at hperm hasks
  obtain ⟨bids, asks⟩ := book
  simp only at hperm hasks hs
  subst hasks
  cases bids with
  | nil => exact absurd (List.Perm.eq_nil hperm.symm) hne
  | cons b rest =>
    have hmem : b ∈ orders := hperm.mem_iff.mp (List.mem_cons_self _ _)
    have hub : ∀ o ∈ orders, o.1 ≤ b.1 := by
      intro o ho
      rcases List.mem_cons.mp (hperm.mem_iff.mpr ho) with rfl | hr
      · exact le_refl _
      · exact (List.pairwise_cons.mp hs).1 o hr
    refine ⟨⟨b :: rest, []⟩, (b.1, 0), hrun, by simp [printTop], by simp, ?_, ⟨b, hmem, rfl⟩, hub⟩
    rw [List.maximum_eq_coe_iff]
    refine ⟨List.mem_map.mpr ⟨b, hmem, rfl⟩, ?_⟩
    intro a ha
    obtain ⟨o, ho, rfl⟩ := List.mem_map.mp ha
    exact hub o ho

/-- Witness of C5 on the three insertions `(3, 1)`, `(7, 2)`, `(5, 3)`. -/
theorem printTop_reports_max_bid_witness :
    ([(3, 1), (7, 2), (5, 3)] : List (Level ℚ)) ≠ [] ∧
    addBids (OrderBook.empty : OrderBook ℚ) [(3, 1), (7, 2), (5, 3)] =
      some ⟨[(7, 2), (5, 3), (3, 1)], []⟩ ∧
    printTop (⟨[(7, 2), (5, 3), (3, 1)], []⟩ : OrderBook ℚ) = some (7, 0) ∧
    ∃ book r, addBids (OrderBook.empty : OrderBook ℚ) [(3, 1), (7, 2), (5, 3)] = some book ∧
      printTop book = some r ∧
      book.bids[0]?.map Prod.fst = some r.1 ∧
      (([(3, 1), (7, 2), (5, 3)] : List (Level ℚ)).map Prod.fst).maximum = (r.1 : WithBot ℚ) ∧
      (∃ o ∈ ([(3, 1), (7, 2), (5, 3)] : List (Level ℚ)), o.1 = r.1) ∧
      (∀ o ∈ ([(3, 1), (7, 2), (5, 3)] : List (Level ℚ)), o.1 ≤ r.1) :=
  ⟨by simp,
   by norm_num [addBids, addBid, addBidPos, addBidLoop, vectorInsert, OrderBook.empty],
   by simp [printTop],
   printTop_reports_max_bid [(3, 1), (7, 2), (5, 3)] (by simp)⟩

/-- C6: querying the top of an empty side never fails and yields zero.
`printTop` returns on every book (index 0 of an empty sequence is never read);
on a book with no bids the top-bid price it reports is `0`, whatever the asks
are, and on a book with no asks the top-ask price it reports is `0`, whatever
the bids are. -/
theorem printTop_empty_side_zero {α : Type} [Zero α] :
    (∀ book : OrderBook α, ∃ r, printTop book = some r) ∧
    (∀ asks : List (Level α), ∃ topAsk, printTop (⟨[], asks⟩ : OrderBook α) = some (0, topAsk)) ∧
    (∀ bids : List (Level α), ∃ topBid, printTop (⟨bids, []⟩ : OrderBook α) = some (topBid, 0)) ∧
    printTop (OrderBook.empty : OrderBook α) = some (0, 0) := by
  have hall : ∀ book : OrderBook α, ∃ r, printTop book = some r := by
    rintro ⟨bids, asks⟩
    cases bids <;> cases asks <;> simp [printTop]
  refine ⟨hall, ?_, ?_, by simp [printTop, OrderBook.empty]⟩
  · intro asks
    cases asks with
    | nil => exact ⟨0, rfl⟩
    | cons a rest => exact ⟨a.1, by simp [printTop]⟩
  · intro bids
    cases bids with
    | nil => exact ⟨0, rfl⟩
    | cons b rest => exact ⟨b.1, by simp [printTop]⟩

/-! ## Volatility: the window loop -/

/-- The window loop started at index `i` with the window inside the sequence
returns, having added the elements at indices `i .. w - 1` and their squares
to the two accumulators. -/
theorem windowLoop_eq {α : Type} [LinearOrderedField α] (returns : List α) (w : Nat)
    (hw : w ≤ returns.length) :
    ∀ (fuel i : Nat) (sum sqSum : α), i ≤ w → w - i ≤ fuel →
      windowLoop returns (w : Int) fuel i sum sqSum =
        some (sum + ((returns.drop i).take (w - i)).sum,
          sqSum + (((returns.drop i).take (w - i)).map (fun x => x * x)).sum) := by
  intro fuel
  induction fuel with
  | zero =>
    intro i sum sqSum hi hf
    have h0 : w - i = 0 := by omega
    have : ¬ (i : Int) < (w : Int) := by omega
    simp [windowLoop, this, h0]
  | succ n ih =>
    intro i sum sqSum hi hf
    by_cases hlt : i < w
    · have hil : i < returns.length := by omega
      have hlt2 : (i : Int) < (w : Int) := by omega
      have hsplit : (returns.drop i).take (w - i) =
          returns[i] :: (returns.drop (i + 1)).take (w - (i + 1)) := by
        rw [List.drop_eq_getElem_cons hil]
        have : w - i = (w - (i + 1)) + 1 := by omega
        rw [this, List.take_succ_cons]
      rw [windowLoop]
      simp only [hlt2, if_true, List.getElem?_eq_getElem hil]
      rw [ih (i + 1) _ _ (by omega) (by omega), hsplit]
      simp only [List.sum_cons, List.map_cons]
      congr 1
      rw [Prod.mk.injEq]
      exact ⟨by ring, by ring⟩
    · have h0 : w - i = 0 := by omega
      have : ¬ (i : Int) < (w : Int) := by omega
      rw [windowLoop]
      simp [this, h0]

/-- With the window inside the sequence, the locals of
`calculateRollingVolatility` hold the sum and the sum of squares of the first
`w` elements, their mean, and the mean of squares minus the squared mean. -/
theorem windowStats_eq {α : Type} [LinearOrderedField α] (returns : List α) (w : Nat)
    (hw : w ≤ returns.length) :
    windowStats returns (w : Int) =
      some ⟨(returns.take w).sum, ((returns.take w).map (fun x => x * x)).sum,
        (returns.take w).sum / (w : α),
        ((returns.take w).map (fun x => x * x)).sum / (w : α) -
          ((returns.take w).sum / (w : α)) * ((returns.take w).sum / (w : α))⟩ := by
  unfold windowStats
  rw [Int.toNat_ofNat, windowLoop_eq returns w hw w 0 0 0 (Nat.zero_le _) (by omega)]
  simp

/-- The `size_t` conversion leaves a window size between `0` and `INT_MAX`
unchanged. -/
theorem toSizeT_of_nonneg (n : Int) (h0 : 0 ≤ n) (h1 : n ≤ INT_MAX) : toSizeT n = n := by
  unfold toSizeT
  unfold INT_MAX at h1
  omega

/-- In a linear order `std::max` is the maximum. -/
theorem stdMax_eq_max {α : Type} [LinearOrder α] (a b : α) : stdMax a b = max a b := by
  unfold stdMax
  rcases lt_trichotomy a b with h | h | h
  · rw [if_pos h, max_eq_right (le_of_lt h)]
  · subst h; simp
  · rw [if_neg (not_lt.mpr (le_of_lt h)), max_eq_left (le_of_lt h)]

/-- With `1 ≤ w ≤ returns.size()` the function returns the value of `sqrt` at
the clamped variance of the first `w` elements. -/
theorem calculateRollingVolatility_eq {α : Type} [LinearOrderedField α] (sqrt : α → α)
    (returns : List α) (w : Nat) (hw : w ≤ returns.length) (hint : (w : Int) ≤ INT_MAX) :
    calculateRollingVolatility sqrt returns (w : Int) =
      some (sqrt (max
        (((returns.take w).map (fun x => x * x)).sum / (w : α) -
          ((returns.take w).sum / (w : α)) * ((returns.take w).sum / (w : α))) 0)) := by
  unfold calculateRollingVolatility
  rw [toSizeT_of_nonneg (w : Int) (Int.ofNat_nonneg w) hint]
  have hguard : ¬ ((returns.length : Int) < (w : Int)) := by omega
  rw [if_neg hguard, windowStats_eq returns w hw]
  simp [stdMax_eq_max]

/-! ## Volatility: the claims -/

/-- C7: for every return sequence and every `windowSize` greater than the
length of the sequence, `calculateRollingVolatility` returns exactly `0`: the
function returns before the loop, whatever the sequence holds. -/
theorem calculateRollingVolatility_insufficient_data {α : Type} [LinearOrderedField α]
    (sqrt : α → α) (returns : List α) (windowSize : Int)
    (hlen : (returns.length : Int) < windowSize) (hint : windowSize ≤ INT_MAX) :
    calculateRollingVolatility sqrt returns windowSize = some 0 := by
  unfold calculateRollingVolatility
  rw [toSizeT_of_nonneg windowSize (by omega) hint, if_pos hlen]

/-- Witness of C7: three returns and a window of five. -/
theorem calculateRollingVolatility_insufficient_data_witness :
    (([1, 2, 3] : List ℚ).length : Int) < 5 ∧ (5 : Int) ≤ INT_MAX ∧
      calculateRollingVolatility Rat.sqrt ([1, 2, 3] : List ℚ) 5 = some 0 :=
  ⟨by decide, by decide,
   calculateRollingVolatility_insufficient_data Rat.sqrt [1, 2, 3] 5 (by decide) (by decide)⟩

/-- C8: for every return sequence and every window size `w` with
`1 ≤ w ≤ len(returns)`, `calculateRollingVolatility(returns, w)` returns
`sqrt(max(M2 - M * M, 0))`, where `M` is the arithmetic mean and `M2` the mean
of the squares of the first `w` elements; the result is the one obtained on the
length-`w` prefix, and on every other sequence with the same first `w`
elements.  (The bound `1 ≤ w` keeps the divisions away from a zero divisor,
where the field convention `x / 0 = 0` and the code part ways.) -/
theorem calculateRollingVolatility_first_window {α : Type} [LinearOrderedField α]
    (sqrt : α → α) (returns : List α) (w : Nat) (_h1 : 1 ≤ w) (hw : w ≤ returns.length)
    (hint : (w : Int) ≤ INT_MAX) :
    calculateRollingVolatility sqrt returns (w : Int) =
      some (sqrt (max
        (((returns.take w).map (fun x => x * x)).sum / (w : α) -
          ((returns.take w).sum / (w : α)) * ((returns.take w).sum / (w : α))) 0)) ∧
    calculateRollingVolatility sqrt returns (w : Int) =
      calculateRollingVolatility sqrt (returns.take w) (w : Int) ∧
    ∀ other : List α, other.take w = returns.take w →
      calculateRollingVolatility sqrt other (w : Int) =
        calculateRollingVolatility sqrt returns (w : Int) := by
  have hother : ∀ other : List α, other.take w = returns.take w →
      calculateRollingVolatility sqrt other (w : Int) =
        calculateRollingVolatility sqrt returns (w : Int) := by
    intro other hp
    have hlo : w ≤ other.length := by
      have := congrArg List.length hp
      rw [List.length_take, List.length_take] at this
      omega
    rw [calculateRollingVolatility_eq sqrt other w hlo hint,
      calculateRollingVolatility_eq sqrt returns w hw hint, hp]
  refine ⟨calculateRollingVolatility_eq sqrt returns w hw hint, ?_, hother⟩
  exact (hother (returns.take w) (by rw [List.take_take, Nat.min_self])).symm

/-- Witness of C8: a window of two over `[1, 3, 100]`, whose mean is `2`, mean
of squares `5` and result `sqrt 1 = 1`. -/
theorem calculateRollingVolatility_first_window_witness :
    calculateRollingVolatility Rat.sqrt ([1, 3, 100] : List ℚ) 2 = some 1 ∧
    (calculateRollingVolatility Rat.sqrt ([1, 3, 100] : List ℚ) ((2 : Nat) : Int) =
      some (Rat.sqrt (max
        (((([1, 3, 100] : List ℚ).take 2).map (fun x => x * x)).sum / ((2 : Nat) : ℚ) -
          ((([1, 3, 100] : List ℚ).take 2).sum / ((2 : Nat) : ℚ)) *
            ((([1, 3, 100] : List ℚ).take 2).sum / ((2 : Nat) : ℚ))) 0)) ∧
    calculateRollingVolatility Rat.sqrt ([1, 3, 100] : List ℚ) ((2 : Nat) : Int) =
      calculateRollingVolatility Rat.sqrt (([1, 3, 100] : List ℚ).take 2) ((2 : Nat) : Int) ∧
    ∀ other : List ℚ, other.take 2 = ([1, 3, 100] : List ℚ).take 2 →
      calculateRollingVolatility Rat.sqrt other ((2 : Nat) : Int) =
        calculateRollingVolatility Rat.sqrt ([1, 3, 100] : List ℚ) ((2 : Nat) : Int)) :=
  ⟨by
    have h4 : Rat.sqrt 1 = 1 := by
      have h := Rat.sqrt_eq 1
      rw [mul_one, abs_one] at h
      exact h
    norm_num [calculateRollingVolatility, toSizeT, windowStats, windowLoop, stdMax, h4],
   calculateRollingVolatility_first_window Rat.sqrt [1, 3, 100] 2 (by decide) (by decide)
     (by decide)⟩

/-- C9: for every return sequence and every `windowSize ≥ 1`, whether or not
the sequence is long enough, `calculateRollingVolatility` returns a value
`≥ 0`, for every `sqrt` that is non-negative on non-negative arguments. -/
theorem calculateRollingVolatility_nonneg {α : Type} [LinearOrderedField α]
    (sqrt : α → α) (hsqrt : ∀ x, 0 ≤ x → 0 ≤ sqrt x) (returns : List α) (windowSize : Int)
    (h1 : 1 ≤ windowSize) (hint : windowSize ≤ INT_MAX) :
    ∃ v, calculateRollingVolatility sqrt returns windowSize = some v ∧ 0 ≤ v := by
  by_cases hlen : (returns.length : Int) < windowSize
  · exact ⟨0, calculateRollingVolatility_insufficient_data sqrt returns windowSize hlen hint,
      le_refl _⟩
  · obtain ⟨w, rfl⟩ := Int.eq_ofNat_of_zero_le (by omega : 0 ≤ windowSize)
    have hw : w ≤ returns.length := by omega
    exact ⟨_, calculateRollingVolatility_eq sqrt returns w hw hint,
      hsqrt _ (le_max_right _ _)⟩

/-- Witness of C9: a window of two over `[1, 3, 100]` with the rational square
root. -/
theorem calculateRollingVolatility_nonneg_witness :
    (∀ x : ℚ, 0 ≤ x → 0 ≤ Rat.sqrt x) ∧ (1 : Int) ≤ 2 ∧ (2 : Int) ≤ INT_MAX ∧
      ∃ v, calculateRollingVolatility Rat.sqrt ([1, 3, 100] : List ℚ) 2 = some v ∧ 0 ≤ v :=
  ⟨fun x _ => Rat.sqrt_nonneg x, by decide, by decide,
   calculateRollingVolatility_nonneg Rat.sqrt (fun x _ => Rat.sqrt_nonneg x) [1, 3, 100] 2
     (by decide) (by decide)⟩

/-- C10, as stated, fails: for the returns `[0.01, -0.02, 0.015, 0.005, -0.01]`
and `windowSize` 5 the mean computed over the window is not `-0.0002`. -/
theorem windowStats_demo_mean_ne :
    (windowStats ([0.01, -0.02, 0.015, 0.005, -0.01] : List ℚ) 5).map (fun st => st.mean) ≠
      some (-0.0002) := by
  norm_num [windowStats, windowLoop]

/-- C10, amended: for the returns `[0.01, -0.02, 0.015, 0.005, -0.01]` and
`windowSize` 5 the sum over the window is `0` and the mean `sum / windowSize`
is `0`; the mean of squares is `0.00017`, which is also the variance. -/
theorem windowStats_demo_mean :
    windowStats ([0.01, -0.02, 0.015, 0.005, -0.01] : List ℚ) 5 =
      some ⟨0, 0.00085, 0, 0.00017⟩ := by
  norm_num [windowStats, windowLoop]

/-! ## Trading window: the scan invariant -/

/-- The prefix sum grows by the element read. -/
theorem prefixSum_succ {α : Type} [LinearOrderedField α] (spread : List α) (i : Nat)
    (h : i < spread.length) :
    prefixSum spread (i + 1) = prefixSum spread i + spread[i] := by
  unfold prefixSum
  exact List.sum_take_succ spread i h

/-- The sum of `spread[a..b]` is a difference of two prefix sums. -/
theorem rangeSum_eq_prefixSum {α : Type} [LinearOrderedField α] (spread : List α) (a b : Nat)
    (h : a ≤ b + 1) :
    rangeSum spread a b = prefixSum spread (b + 1) - prefixSum spread a := by
  unfold rangeSum prefixSum
  have hsplit : spread.take (b + 1) = spread.take a ++ (spread.drop a).take (b + 1 - a) := by
    rw [← List.take_add]
    congr 1
    omega
  rw [hsplit, List.sum_append]
  ring

/-- One iteration of the scan carries the invariant from index `i` to
`i + 1`. -/
theorem scanStep_inv {α : Type} [LinearOrderedField α] (spread : List α) (i : Nat)
    (h : i < spread.length) (s : ScanState α) (inv : ScanInv spread i s) :
    ScanInv spread (i + 1) (scanStep s i spread[i]) := by
  obtain ⟨hstart, hcur, hsuf, hbest, hrec⟩ := inv
  have hP := prefixSum_succ spread i h
  have hmax0 : 0 ≤ s.maxProfit := by
    have := hbest 0 0 (le_refl _) (Nat.zero_le _)
    simpa using this
  have hrec' : (s.maxProfit = 0 ∧ s.entry = 0 ∧ s.exit = 0) ∨
      (s.entry ≤ s.exit ∧ s.exit < i + 1 ∧ 0 < s.maxProfit ∧
        s.maxProfit = prefixSum spread (s.exit + 1) - prefixSum spread s.entry) := by
    rcases hrec with h0 | ⟨h1, h2, h3, h4⟩
    · exact Or.inl h0
    · exact Or.inr ⟨h1, by omega, h3, h4⟩
  by_cases hneg : s.currentProfit + spread[i] < 0
  · -- the running sum is reset
    have hsuf' : ∀ j, j ≤ i + 1 → prefixSum spread (i + 1) - prefixSum spread j ≤ 0 := by
      intro j hj
      rcases Nat.lt_or_ge j (i + 1) with hlt | hge
      · have := hsuf j (by omega)
        rw [hP]; linarith
      · have : j = i + 1 := by omega
        subst this; simp
    have hnot : ¬ (0 : α) > s.maxProfit := not_lt.mpr hmax0
    simp only [scanStep, hneg, if_true, hnot, if_false]
    refine ⟨le_refl _, by simp, hsuf', ?_, hrec'⟩
    intro a b hab hb
    rcases Nat.lt_or_ge b (i + 1) with hlt | hge
    · exact hbest a b hab (by omega)
    · have : b = i + 1 := by omega
      subst this
      exact le_trans (hsuf' a hab) hmax0
  · -- the running sum is kept
    have hcp0 : 0 ≤ s.currentProfit + spread[i] := not_lt.mp hneg
    have hsuf' : ∀ j, j ≤ i + 1 →
        prefixSum spread (i + 1) - prefixSum spread j ≤ s.currentProfit + spread[i] := by
      intro j hj
      rcases Nat.lt_or_ge j (i + 1) with hlt | hge
      · have := hsuf j (by omega)
        rw [hP]; linarith
      · have : j = i + 1 := by omega
        subst this; simpa using hcp0
    have hcur' : s.currentProfit + spread[i] =
        prefixSum spread (i + 1) - prefixSum spread s.currentStart := by
      rw [hP, hcur]; ring
    by_cases hgt : s.currentProfit + spread[i] > s.maxProfit
    · -- a new best sum is recorded
      simp only [scanStep, hneg, if_false, hgt, if_true]
      refine ⟨Nat.le_succ_of_le hstart, hcur', hsuf', ?_,
        Or.inr ⟨hstart, Nat.lt_succ_self i, ?_, hcur'⟩⟩
      · intro a b hab hb
        rcases Nat.lt_or_ge b (i + 1) with hlt | hge
        · exact le_of_lt (lt_of_le_of_lt (hbest a b hab (by omega)) hgt)
        · have : b = i + 1 := by omega
          subst this
          exact hsuf' a hab
      · exact lt_of_le_of_lt hmax0 hgt
    · simp only [scanStep, hneg, if_false, hgt]
      refine ⟨Nat.le_succ_of_le hstart, hcur', hsuf', ?_, hrec'⟩
      intro a b hab hb
      rcases Nat.lt_or_ge b (i + 1) with hlt | hge
      · exact hbest a b hab (by omega)
      · have : b = i + 1 := by omega
        subst this
        exact le_trans (hsuf' a hab) (not_lt.mp hgt)

/-- The invariant holds before the first iteration. -/
theorem scanInv_init {α : Type} [LinearOrderedField α] (spread : List α) :
    ScanInv spread 0 (ScanState.init : ScanState α) := by
  refine ⟨le_refl _, by simp [ScanState.init], ?_, ?_, Or.inl ⟨rfl, rfl, rfl⟩⟩
  · intro j hj
    have : j = 0 := by omega
    subst this; simp [ScanState.init]
  · intro a b hab hb
    have h1 : b = 0 := by omega
    have h2 : a = 0 := by omega
    subst h1; subst h2; simp [ScanState.init]

/-- The scan loop returns, and any property that holds when the loop is entered
at index `i` and is carried by every iteration holds of the final state. -/
theorem scanLoop_induction {α : Type} [LinearOrderedField α] (spread : List α)
    (P : Nat → ScanState α → Prop)
    (hstep : ∀ i (h : i < spread.length) (s : ScanState α), P i s →
      P (i + 1) (scanStep s i spread[i])) :
    ∀ (fuel i : Nat) (s : ScanState α), i ≤ spread.length → spread.length - i ≤ fuel → P i s →
      ∃ s', scanLoop spread fuel i s = some s' ∧ P spread.length s' := by
  intro fuel
  induction fuel with
  | zero =>
    intro i s hi hf hP
    have hil : i = spread.length := by omega
    subst hil
    exact ⟨s, by simp [scanLoop], hP⟩
  | succ n ih =>
    intro i s hi hf hP
    by_cases hlt : i < spread.length
    · obtain ⟨s', hs', hP'⟩ :=
        ih (i + 1) (scanStep s i spread[i]) (by omega) (by omega) (hstep i hlt s hP)
      refine ⟨s', ?_, hP'⟩
      rw [scanLoop]
      simp only [hlt, if_true, List.getElem?_eq_getElem hlt]
      exact hs'
    · have hil : i = spread.length := by omega
      subst hil
      exact ⟨s, by simp [scanLoop], hP⟩

/-- The scan of `findBestTradingWindow` returns a state that satisfies the
invariant at the end of the sequence. -/
theorem findBestTradingWindow_inv {α : Type} [LinearOrderedField α] (spread : List α) :
    ∃ s, scanLoop spread spread.length 0 ScanState.init = some s ∧
      findBestTradingWindow spread = some (s.entry, s.exit) ∧
      ScanInv spread spread.length s := by
  obtain ⟨s, hs, hinv⟩ :=
    scanLoop_induction spread (ScanInv spread) (scanStep_inv spread) spread.length 0
      ScanState.init (Nat.zero_le _) (by omega) (scanInv_init spread)
  exact ⟨s, hs, by simp [findBestTradingWindow, hs], hinv⟩

/-! ## Trading window: the claims -/

/-- C11: for every spread sequence in which every value is `≤ 0`, the empty
sequence included, `findBestTradingWindow` returns with `entry = 0` and
`exit = 0`. -/
theorem findBestTradingWindow_nonpositive {α : Type} [LinearOrderedField α] (spread : List α)
    (hnp : ∀ x ∈ spread, x ≤ 0) :
    findBestTradingWindow spread = some (0, 0) := by
  obtain ⟨s, hs, _, h2, h3, h4⟩ :=
    scanLoop_induction spread
      (fun _ s => s.currentProfit = 0 ∧ s.maxProfit = 0 ∧ s.entry = 0 ∧ s.exit = 0)
      (by
        intro i h s hP
        obtain ⟨h1, h2, h3, h4⟩ := hP
        have hx : spread[i] ≤ 0 := hnp _ (List.getElem_mem h)
        by_cases hneg : s.currentProfit + spread[i] < 0
        · simp [scanStep, hneg, h2, h3, h4]
        · have hzero : s.currentProfit + spread[i] = 0 := by
            rw [h1] at hneg ⊢
            exact le_antisymm (by simpa using hx) (not_lt.mp hneg)
          simp [scanStep, hzero, h2, h3, h4])
      spread.length 0 ScanState.init (Nat.zero_le _) (by omega) ⟨rfl, rfl, rfl, rfl⟩
  simp [findBestTradingWindow, hs, h3, h4]

/-- Witness of C11: the all-negative spread `[-1, -2, -3]` yields `(0, 0)`. -/
theorem findBestTradingWindow_nonpositive_witness :
    (∀ x ∈ ([-1, -2, -3] : List ℚ), x ≤ 0) ∧
      findBestTradingWindow ([-1, -2, -3] : List ℚ) = some (0, 0) :=
  ⟨by norm_num, findBestTradingWindow_nonpositive [-1, -2, -3] (by norm_num)⟩

/-- C12: for every spread sequence that contains at least one value `> 0`,
`findBestTradingWindow` returns a pair `(entry, exit)` of indices in order that
delimits a maximum-sum contiguous range: the sum of `spread[entry..exit]` is at
least the sum of `spread[i..j]` for all `0 ≤ i ≤ j < len(spread)`. -/
theorem findBestTradingWindow_max_of_positive {α : Type} [LinearOrderedField α]
    (spread : List α) (hpos : ∃ x ∈ spread, 0 < x) :
    ∃ entry exit, findBestTradingWindow spread = some (entry, exit) ∧
      entry ≤ exit ∧ exit < spread.length ∧
      ∀ i j, i ≤ j → j < spread.length → rangeSum spread i j ≤ rangeSum spread entry exit := by
  obtain ⟨s, _, hres, inv⟩ := findBestTradingWindow_inv spread
  obtain ⟨x, hx, hx0⟩ := hpos
  obtain ⟨k, hk, rfl⟩ := List.mem_iff_getElem.mp hx
  have hbest : 0 < s.maxProfit := by
    have := inv.best_ge k (k + 1) (Nat.le_succ k) hk
    rw [prefixSum_succ spread k hk] at this
    have h2 : spread[k] ≤ s.maxProfit := by linarith
    exact lt_of_lt_of_le hx0 h2
  rcases inv.recorded with ⟨h0, _, _⟩ | ⟨h1, h2, _, h4⟩
  · exact absurd h0 (ne_of_gt hbest)
  · refine ⟨s.entry, s.exit, hres, h1, h2, ?_⟩
    intro i j hij hj
    rw [rangeSum_eq_prefixSum spread i j (by omega),
      rangeSum_eq_prefixSum spread s.entry s.exit (by omega), ← h4]
    exact inv.best_ge i (j + 1) (by omega) hj

/-- Witness of C12: on `[-3, 4, -1, 2, -5]` the range found is `(1, 3)`, of
sum `5`. -/
theorem findBestTradingWindow_max_of_positive_witness :
    (∃ x ∈ ([-3, 4, -1, 2, -5] : List ℚ), 0 < x) ∧
    findBestTradingWindow ([-3, 4, -1, 2, -5] : List ℚ) = some (1, 3) ∧
    ∃ entry exit, findBestTradingWindow ([-3, 4, -1, 2, -5] : List ℚ) = some (entry, exit) ∧
      entry ≤ exit ∧ exit < ([-3, 4, -1, 2, -5] : List ℚ).length ∧
      ∀ i j, i ≤ j → j < ([-3, 4, -1, 2, -5] : List ℚ).length →
        rangeSum ([-3, 4, -1, 2, -5] : List ℚ) i j ≤
          rangeSum ([-3, 4, -1, 2, -5] : List ℚ) entry exit :=
  ⟨⟨4, by simp, by norm_num⟩,
   by norm_num [findBestTradingWindow, scanLoop, scanStep, ScanState.init],
   findBestTradingWindow_max_of_positive [-3, 4, -1, 2, -5] ⟨4, by simp, by norm_num⟩⟩

/-- C13, as stated, fails: on the non-empty spread `[-2, -1]` the function
returns `(0, 0)`, whose sum `-2` is below the sum `-1` of the range `(1, 1)`. -/
theorem findBestTradingWindow_not_max_on_negative :
    findBestTradingWindow ([-2, -1] : List ℚ) = some (0, 0) ∧
      rangeSum ([-2, -1] : List ℚ) 0 0 = -2 ∧ rangeSum ([-2, -1] : List ℚ) 1 1 = -1 ∧
      ¬ (rangeSum ([-2, -1] : List ℚ) 1 1 ≤ rangeSum ([-2, -1] : List ℚ) 0 0) := by
  refine ⟨by norm_num [findBestTradingWindow, scanLoop, scanStep, ScanState.init], ?_, ?_, ?_⟩ <;>
    norm_num [rangeSum]

/-- C13, amended: for every non-empty spread sequence, with no assumption on
the signs of its values, `findBestTradingWindow` returns a pair of valid
indices in order whose cumulative sum, counted as `0` when it is negative, is
at least the sum of `spread[i..j]` for all `0 ≤ i ≤ j < len(spread)`. -/
theorem findBestTradingWindow_max_clamped {α : Type} [LinearOrderedField α] (spread : List α)
    (hne : spread ≠ []) :
    ∃ entry exit, findBestTradingWindow spread = some (entry, exit) ∧
      entry ≤ exit ∧ exit < spread.length ∧
      ∀ i j, i ≤ j → j < spread.length →
        rangeSum spread i j ≤ max (rangeSum spread entry exit) 0 := by
  obtain ⟨s, _, hres, inv⟩ := findBestTradingWindow_inv spread
  have hlen : 0 < spread.length := List.length_pos.mpr hne
  refine ⟨s.entry, s.exit, hres, ?_⟩
  rcases inv.recorded with ⟨h0, he, hx⟩ | ⟨h1, h2, _, h4⟩
  · refine ⟨by omega, by omega, ?_⟩
    intro i j hij hj
    rw [rangeSum_eq_prefixSum spread i j (by omega)]
    exact le_trans (inv.best_ge i (j + 1) (by omega) hj) (h0 ▸ le_max_right _ _)
  · refine ⟨h1, h2, ?_⟩
    intro i j hij hj
    rw [rangeSum_eq_prefixSum spread i j (by omega),
      rangeSum_eq_prefixSum spread s.entry s.exit (by omega), ← h4]
    exact le_trans (inv.best_ge i (j + 1) (by omega) hj) (le_max_left _ _)

/-- Witness of the amended C13 on the spread `[-2, -1]`. -/
theorem findBestTradingWindow_max_clamped_witness :
    ([-2, -1] : List ℚ) ≠ [] ∧
    ∃ entry exit, findBestTradingWindow ([-2, -1] : List ℚ) = some (entry, exit) ∧
      entry ≤ exit ∧ exit < ([-2, -1] : List ℚ).length ∧
      ∀ i j, i ≤ j → j < ([-2, -1] : List ℚ).length →
        rangeSum ([-2, -1] : List ℚ) i j ≤ max (rangeSum ([-2, -1] : List ℚ) entry exit) 0 :=
  ⟨by simp, findBestTradingWindow_max_clamped [-2, -1] (by simp)⟩

/-- C14: for every non-empty spread sequence, `findBestTradingWindow` returns a
pair of valid indices in order, `0 ≤ entry ≤ exit < len(spread)`. -/
theorem findBestTradingWindow_valid_indices {α : Type} [LinearOrderedField α] (spread : List α)
    (hne : spread ≠ []) :
    ∃ entry exit, findBestTradingWindow spread = some (entry, exit) ∧
      0 ≤ entry ∧ entry ≤ exit ∧ exit < spread.length := by
  obtain ⟨s, _, hres, inv⟩ := findBestTradingWindow_inv spread
  have hlen : 0 < spread.length := List.length_pos.mpr hne
  refine ⟨s.entry, s.exit, hres, Nat.zero_le _, ?_⟩
  rcases inv.recorded with ⟨_, he, hx⟩ | ⟨h1, h2, _, _⟩
  · omega
  · exact ⟨h1, h2⟩

/-- Witness of C14 on `[-1, 2, -3, 4]`, where resets move the start marker to
indices 1 and 3 and the pair returned is `(3, 3)`. -/
theorem findBestTradingWindow_valid_indices_witness :
    ([-1, 2, -3, 4] : List ℚ) ≠ [] ∧
    findBestTradingWindow ([-1, 2, -3, 4] : List ℚ) = some (3, 3) ∧
    ∃ entry exit, findBestTradingWindow ([-1, 2, -3, 4] : List ℚ) = some (entry, exit) ∧
      0 ≤ entry ∧ entry ≤ exit ∧ exit < ([-1, 2, -3, 4] : List ℚ).length :=
  ⟨by simp, by norm_num [findBestTradingWindow, scanLoop, scanStep, ScanState.init],
   findBestTradingWindow_valid_indices [-1, 2, -3, 4] (by simp)⟩

/-- C15, as stated, fails: for the spread `[2, -1, 3, -4, 5]` the pair returned
is not `(2, 2)`. -/
theorem findBestTradingWindow_demo_ne :
    findBestTradingWindow ([2, -1, 3, -4, 5] : List ℚ) ≠ some (2, 2) := by
  norm_num [findBestTradingWindow, scanLoop, scanStep, ScanState.init]

/-- C15, amended: for the spread `[2, -1, 3, -4, 5]` the running sums are
`2, 1, 4, 0, 5` with no reset (the sum `0` at index 3 is not negative), and
`findBestTradingWindow` returns `(0, 4)`, the window whose sum is `5`. -/
theorem findBestTradingWindow_demo :
    findBestTradingWindow ([2, -1, 3, -4, 5] : List ℚ) = some (0, 4) ∧
      rangeSum ([2, -1, 3, -4, 5] : List ℚ) 0 4 = 5 ∧
      scanLoop ([2, -1, 3, -4, 5] : List ℚ) 5 0 ScanState.init = some ⟨5, 5, 0, 0, 4⟩ := by
  refine ⟨by norm_num [findBestTradingWindow, scanLoop, scanStep, ScanState.init],
    by norm_num [rangeSum], by norm_num [scanLoop, scanStep, ScanState.init]⟩

/-! ## Stocks -/

/-- What holds of every stock built by the constructor and `addPriceUpdate`
calls: the price history ends with the current price, there is one return
fewer than prices, and each return is the relative change between two
consecutive prices. -/
theorem stock_build_inv {α : Type} [LinearOrderedField α] (updates : List α) :
    ∀ (s : Stock α),
      (s.priceHistory.getLast? = some s.currentPrice ∧
        s.returns.length + 1 = s.priceHistory.length ∧
        ∀ i, i < s.returns.length → ∃ a b, s.priceHistory[i]? = some a ∧
          s.priceHistory[i + 1]? = some b ∧ s.returns[i]? = some ((b - a) / a)) →
      ((updates.foldl Stock.addPriceUpdate s).priceHistory.getLast? =
          some (updates.foldl Stock.addPriceUpdate s).currentPrice ∧
        (updates.foldl Stock.addPriceUpdate s).returns.length + 1 =
          (updates.foldl Stock.addPriceUpdate s).priceHistory.length ∧
        (updates.foldl Stock.addPriceUpdate s).returns.length = s.returns.length + updates.length ∧
        ∀ i, i < (updates.foldl Stock.addPriceUpdate s).returns.length →
          ∃ a b, (updates.foldl Stock.addPriceUpdate s).priceHistory[i]? = some a ∧
            (updates.foldl Stock.addPriceUpdate s).priceHistory[i + 1]? = some b ∧
            (updates.foldl Stock.addPriceUpdate s).returns[i]? = some ((b - a) / a)) := by
  induction updates with
  | nil =>
    intro s ⟨h1, h2, h3⟩
    exact ⟨h1, h2, rfl, h3⟩
  | cons x rest ih =>
    intro s ⟨h1, h2, h3⟩
    have hstep : (s.addPriceUpdate x).priceHistory.getLast? = some (s.addPriceUpdate x).currentPrice ∧
        (s.addPriceUpdate x).returns.length + 1 = (s.addPriceUpdate x).priceHistory.length ∧
        ∀ i, i < (s.addPriceUpdate x).returns.length →
          ∃ a b, (s.addPriceUpdate x).priceHistory[i]? = some a ∧
            (s.addPriceUpdate x).priceHistory[i + 1]? = some b ∧
            (s.addPriceUpdate x).returns[i]? = some ((b - a) / a) := by
      refine ⟨by simp [Stock.addPriceUpdate], by simp [Stock.addPriceUpdate, h2], ?_⟩
      intro i hi
      simp only [Stock.addPriceUpdate, List.length_append, List.length_singleton] at hi ⊢
      rcases Nat.lt_or_ge i s.returns.length with hlt | hge
      · obtain ⟨a, b, ha, hb, hr⟩ := h3 i hlt
        refine ⟨a, b, ?_, ?_, ?_⟩
        · rw [List.getElem?_append_left (by omega)]; exact ha
        · rw [List.getElem?_append_left (by omega)]; exact hb
        · rw [List.getElem?_append_left hlt]; exact hr
      · have hi' : i = s.returns.length := by omega
        subst hi'
        refine ⟨s.currentPrice, x, ?_, ?_, ?_⟩
        · rw [List.getElem?_append_left (by omega)]
          rw [List.getLast?_eq_getElem?] at h1
          rw [← h1]
          congr 1
          omega
        · rw [List.getElem?_append_right (by omega)]
          simp [h2]
        · rw [List.getElem?_append_right (le_refl _)]
          simp
    obtain ⟨g1, g2, g3, g4⟩ := ih (s.addPriceUpdate x) hstep
    refine ⟨g1, g2, ?_, g4⟩
    rw [List.foldl_cons, g3]
    simp [Stock.addPriceUpdate]
    omega

/-- The invariant of `stock_build_inv` on the stock a constructor call leaves. -/
theorem stock_build_spec {α : Type} [LinearOrderedField α] (t : String) (initialPrice : α)
    (updates : List α) :
    (Stock.build t initialPrice updates).priceHistory.getLast? =
        some (Stock.build t initialPrice updates).currentPrice ∧
      (Stock.build t initialPrice updates).returns.length + 1 =
        (Stock.build t initialPrice updates).priceHistory.length ∧
      (Stock.build t initialPrice updates).returns.length = updates.length ∧
      ∀ i, i < (Stock.build t initialPrice updates).returns.length →
        ∃ a b, (Stock.build t initialPrice updates).priceHistory[i]? = some a ∧
          (Stock.build t initialPrice updates).priceHistory[i + 1]? = some b ∧
          (Stock.build t initialPrice updates).returns[i]? = some ((b - a) / a) := by
  have h := stock_build_inv updates (Stock.new t initialPrice)
    ⟨by simp [Stock.new], by simp [Stock.new], fun i hi => by simp [Stock.new] at hi⟩
  obtain ⟨g1, g2, g3, g4⟩ := h
  refine ⟨g1, g2, ?_, g4⟩
  unfold Stock.build
  rw [g3]
  simp [Stock.new]

/-- C16: every `Stock` state reachable from the constructor by any number of
`addPriceUpdate` calls satisfies `returns.size() == priceHistory.size() - 1`;
`priceHistory` is non-empty and `currentPrice` is its last element. -/
theorem stock_returns_length_invariant {α : Type} [LinearOrderedField α] (t : String)
    (initialPrice : α) (updates : List α) :
    (Stock.build t initialPrice updates).returns.length =
        (Stock.build t initialPrice updates).priceHistory.length - 1 ∧
      (Stock.build t initialPrice updates).priceHistory ≠ [] ∧
      (Stock.build t initialPrice updates).priceHistory.getLast? =
        some (Stock.build t initialPrice updates).currentPrice := by
  obtain ⟨g1, g2, _, _⟩ := stock_build_spec t initialPrice updates
  refine ⟨by omega, ?_, g1⟩
  intro hnil
  rw [hnil] at g2
  simp at g2

/-- C17: for every `Stock` built by the constructor followed by
`addPriceUpdate` calls with non-zero prices, and every index
`i < returns.size()`, `returns[i] == (priceHistory[i+1] - priceHistory[i]) /
priceHistory[i]`, with a non-zero divisor; and `addPriceUpdate` is append-only:
on any stock it adds one element at the end of `returns` and of `priceHistory`
and leaves all earlier entries unchanged. -/
theorem stock_returns_formula {α : Type} [LinearOrderedField α] (t : String) (initialPrice : α)
    (updates : List α) (h0 : initialPrice ≠ 0) (hnz : ∀ x ∈ updates, x ≠ 0) :
    (∀ i, i < (Stock.build t initialPrice updates).returns.length →
      ∃ a b, (Stock.build t initialPrice updates).priceHistory[i]? = some a ∧
        (Stock.build t initialPrice updates).priceHistory[i + 1]? = some b ∧
        a ≠ 0 ∧
        (Stock.build t initialPrice updates).returns[i]? = some ((b - a) / a)) ∧
    (∀ (s : Stock α) (newPrice : α),
      (s.addPriceUpdate newPrice).returns =
        s.returns ++ [(newPrice - s.currentPrice) / s.currentPrice] ∧
      (s.addPriceUpdate newPrice).priceHistory = s.priceHistory ++ [newPrice] ∧
      (∀ i, i < s.returns.length → (s.addPriceUpdate newPrice).returns[i]? = s.returns[i]?) ∧
      (∀ i, i < s.priceHistory.length →
        (s.addPriceUpdate newPrice).priceHistory[i]? = s.priceHistory[i]?)) := by
  constructor
  · intro i hi
    obtain ⟨_, _, _, g4⟩ := stock_build_spec t initialPrice updates
    obtain ⟨a, b, ha, hb, hr⟩ := g4 i hi
    refine ⟨a, b, ha, hb, ?_, hr⟩
    have hmem : a ∈ (Stock.build t initialPrice updates).priceHistory :=
      List.getElem?_mem ha
    have hall : ∀ (ups : List α) (s : Stock α), (∀ x ∈ ups, x ≠ 0) →
        (∀ x ∈ s.priceHistory, x ≠ 0) →
        ∀ x ∈ (ups.foldl Stock.addPriceUpdate s).priceHistory, x ≠ 0 := by
      intro ups
      induction ups with
      | nil => intro s _ hs; exact hs
      | cons u rest ih =>
        intro s hu hs
        rw [List.foldl_cons]
        apply ih
        · exact fun x hx => hu x (List.mem_cons_of_mem _ hx)
        · intro x hx
          simp only [Stock.addPriceUpdate, List.mem_append, List.mem_singleton] at hx
          rcases hx with hx | rfl
          · exact hs x hx
          · exact hu _ (List.mem_cons_self _ _)
    exact hall updates (Stock.new t initialPrice) hnz
      (by intro x hx; simp [Stock.new] at hx; rw [hx]; exact h0) a hmem
  · intro s newPrice
    refine ⟨rfl, rfl, ?_, ?_⟩
    · intro i hi
      simp only [Stock.addPriceUpdate]
      rw [List.getElem?_append_left hi]
    · intro i hi
      simp only [Stock.addPriceUpdate]
      rw [List.getElem?_append_left hi]

/-- Witness of C17: the stock built from `100` by the updates `110`, `99`. -/
theorem stock_returns_formula_witness :
    (100 : ℚ) ≠ 0 ∧ (∀ x ∈ ([110, 99] : List ℚ), x ≠ 0) ∧
    (Stock.build "INFY" (100 : ℚ) [110, 99]).returns = [1 / 10, -1 / 10] ∧
    ((∀ i, i < (Stock.build "INFY" (100 : ℚ) [110, 99]).returns.length →
      ∃ a b, (Stock.build "INFY" (100 : ℚ) [110, 99]).priceHistory[i]? = some a ∧
        (Stock.build "INFY" (100 : ℚ) [110, 99]).priceHistory[i + 1]? = some b ∧
        a ≠ 0 ∧
        (Stock.build "INFY" (100 : ℚ) [110, 99]).returns[i]? = some ((b - a) / a)) ∧
    (∀ (s : Stock ℚ) (newPrice : ℚ),
      (s.addPriceUpdate newPrice).returns =
        s.returns ++ [(newPrice - s.currentPrice) / s.currentPrice] ∧
      (s.addPriceUpdate newPrice).priceHistory = s.priceHistory ++ [newPrice] ∧
      (∀ i, i < s.returns.length → (s.addPriceUpdate newPrice).returns[i]? = s.returns[i]?) ∧
      (∀ i, i < s.priceHistory.length →
        (s.addPriceUpdate newPrice).priceHistory[i]? = s.priceHistory[i]?))) :=
  ⟨by norm_num, by norm_num,
   by norm_num [Stock.build, Stock.new, Stock.addPriceUpdate],
   stock_returns_formula "INFY" 100 [110, 99] (by norm_num) (by norm_num)⟩

/-! ## Volatility: the population standard deviation -/

/-- The sum of squared deviations from `m`, expanded. -/
theorem sum_sq_deviation {α : Type} [LinearOrderedField α] (m : α) (l : List α) :
    (l.map (fun x => (x - m) ^ 2)).sum =
      (l.map (fun x => x * x)).sum - 2 * m * l.sum + (l.length : α) * m ^ 2 := by
  induction l with
  | nil => simp
  | cons a rest ih =>
    simp only [List.map_cons, List.sum_cons, List.length_cons, Nat.cast_succ, ih]
    ring

/-- The mean of squares minus the squared mean is the mean squared
deviation, which is non-negative. -/
theorem variance_eq_meanSquaredDeviation {α : Type} [LinearOrderedField α] (returns : List α)
    (w : Nat) (h1 : 1 ≤ w) (hw : w ≤ returns.length) :
    specMeanSquare returns w - specMean returns w * specMean returns w =
        specMeanSquaredDeviation returns w ∧
      0 ≤ specMeanSquaredDeviation returns w := by
  have hw0 : (w : α) ≠ 0 := by
    have : (0 : α) < (w : α) := by exact_mod_cast h1
    exact ne_of_gt this
  have hlen : (returns.take w).length = w := by rw [List.length_take]; omega
  constructor
  · unfold specMeanSquaredDeviation
    rw [sum_sq_deviation, hlen]
    unfold specMeanSquare specMean
    field_simp
    ring
  · unfold specMeanSquaredDeviation
    apply mul_nonneg
    · exact div_nonneg zero_le_one (Nat.cast_nonneg w)
    · apply List.sum_nonneg
      intro x hx
      obtain ⟨y, _, rfl⟩ := List.mem_map.mp hx
      exact sq_nonneg _

/-- C18: in exact arithmetic the clamp in `calculateRollingVolatility` is never
active and the result is the population standard deviation.  For every
sequence and `1 ≤ w ≤ len(returns)`, `M2 - M * M` equals `(1 / w)` times the
sum over the first `w` elements of `(x_i - M) ^ 2`, hence is `≥ 0`; the
variance the code computes is that value, clamping it at `0` leaves it
unchanged, and the value returned is `sqrt` of that mean squared deviation. -/
theorem calculateRollingVolatility_population_std {α : Type} [LinearOrderedField α]
    (sqrt : α → α) (returns : List α) (w : Nat) (h1 : 1 ≤ w) (hw : w ≤ returns.length)
    (hint : (w : Int) ≤ INT_MAX) :
    specMeanSquare returns w - specMean returns w * specMean returns w =
        specMeanSquaredDeviation returns w ∧
      0 ≤ specMeanSquare returns w - specMean returns w * specMean returns w ∧
      (windowStats returns (w : Int)).map (fun st => st.variance) =
        some (specMeanSquaredDeviation returns w) ∧
      (windowStats returns (w : Int)).map (fun st => stdMax st.variance 0) =
        (windowStats returns (w : Int)).map (fun st => st.variance) ∧
      calculateRollingVolatility sqrt returns (w : Int) =
        some (sqrt (specMeanSquaredDeviation returns w)) := by
  obtain ⟨heq, hnn⟩ := variance_eq_meanSquaredDeviation returns w h1 hw
  have hvar : (windowStats returns (w : Int)).map (fun st => st.variance) =
      some (specMeanSquaredDeviation returns w) := by
    rw [windowStats_eq returns w hw, ← heq]
    rfl
  have hclamp : stdMax (specMeanSquaredDeviation returns w) 0 =
      specMeanSquaredDeviation returns w := by
    rw [stdMax_eq_max, max_eq_left hnn]
  refine ⟨heq, heq ▸ hnn, hvar, ?_, ?_⟩
  · rw [hvar, windowStats_eq returns w hw]
    simp only [Option.map_some']
    have : ((returns.take w).map (fun x => x * x)).sum / (w : α) -
        (returns.take w).sum / (w : α) * ((returns.take w).sum / (w : α)) =
        specMeanSquaredDeviation returns w := heq
    rw [this, hclamp]
  · rw [calculateRollingVolatility_eq sqrt returns w hw hint]
    have : ((returns.take w).map (fun x => x * x)).sum / (w : α) -
        (returns.take w).sum / (w : α) * ((returns.take w).sum / (w : α)) =
        specMeanSquaredDeviation returns w := heq
    rw [this, max_eq_left hnn]

/-- Witness of C18: a window of two over `[1, 3, 100]`: mean `2`, mean squared
deviation `1`, result `sqrt 1`. -/
theorem calculateRollingVolatility_population_std_witness :
    specMean ([1, 3, 100] : List ℚ) 2 = 2 ∧
    specMeanSquaredDeviation ([1, 3, 100] : List ℚ) 2 = 1 ∧
    (specMeanSquare ([1, 3, 100] : List ℚ) 2 -
        specMean ([1, 3, 100] : List ℚ) 2 * specMean ([1, 3, 100] : List ℚ) 2 =
        specMeanSquaredDeviation ([1, 3, 100] : List ℚ) 2 ∧
      0 ≤ specMeanSquare ([1, 3, 100] : List ℚ) 2 -
        specMean ([1, 3, 100] : List ℚ) 2 * specMean ([1, 3, 100] : List ℚ) 2 ∧
      (windowStats ([1, 3, 100] : List ℚ) ((2 : Nat) : Int)).map (fun st => st.variance) =
        some (specMeanSquaredDeviation ([1, 3, 100] : List ℚ) 2) ∧
      (windowStats ([1, 3, 100] : List ℚ) ((2 : Nat) : Int)).map
          (fun st => stdMax st.variance 0) =
        (windowStats ([1, 3, 100] : List ℚ) ((2 : Nat) : Int)).map (fun st => st.variance) ∧
      calculateRollingVolatility Rat.sqrt ([1, 3, 100] : List ℚ) ((2 : Nat) : Int) =
        some (Rat.sqrt (specMeanSquaredDeviation ([1, 3, 100] : List ℚ) 2))) :=
  ⟨by norm_num [specMean], by norm_num [specMeanSquaredDeviation, specMean],
   calculateRollingVolatility_population_std Rat.sqrt [1, 3, 100] 2 (by decide) (by decide)
     (by decide)⟩

/-! ## Pairs analysis -/

/-- On two return sequences of the same length the spread loop returns, having
appended one spread value per remaining index. -/
theorem spreadLoop_length {α : Type} [LinearOrderedField α] (returns1 returns2 : List α)
    (hlen : returns1.length = returns2.length) :
    ∀ (fuel i : Nat) (acc : List α), i ≤ returns1.length → returns1.length - i ≤ fuel →
      ∃ spread, spreadLoop returns1 returns2 fuel i acc = some spread ∧
        spread.length = acc.length + (returns1.length - i) := by
  intro fuel
  induction fuel with
  | zero =>
    intro i acc hi hf
    have hnot : ¬ i < returns1.length := by omega
    exact ⟨acc, by simp [spreadLoop, hnot], by omega⟩
  | succ n ih =>
    intro i acc hi hf
    by_cases hlt : i < returns1.length
    · have hlt2 : i < returns2.length := by omega
      obtain ⟨spread, hs, hl⟩ :=
        ih (i + 1) (acc ++ [returns1[i] - returns2[i]]) (by omega) (by omega)
      refine ⟨spread, ?_, ?_⟩
      · rw [spreadLoop]
        simp only [hlt, if_true, List.getElem?_eq_getElem hlt, List.getElem?_eq_getElem hlt2]
        exact hs
      · rw [hl, List.length_append, List.length_singleton]
        omega
    · exact ⟨acc, by simp [spreadLoop, hlt], by omega⟩

/-- C19: `analyzePairs` never indexes a price history out of bounds.  For any
two stocks built by the constructor and `addPriceUpdate` whose returns have
equal length (length 0 included), the spread loop and `findBestTradingWindow`
return, the `entryDay` and `exitDay` found are both `< priceHistory.size()` of
each stock, and the four `priceHistory` reads succeed, so that the report is
produced; when the return lengths differ, `analyzePairs` stops at the length
check. -/
theorem analyzePairs_reads_in_bounds {α : Type} [LinearOrderedField α] (t1 t2 : String)
    (p1 p2 : α) (updates1 updates2 : List α) (windowSize : Int) :
    ((Stock.build t1 p1 updates1).returns.length = (Stock.build t2 p2 updates2).returns.length →
      ∃ spread entryDay exitDay entryPrice1 entryPrice2 exitPrice1 exitPrice2,
        spreadLoop (Stock.build t1 p1 updates1).returns (Stock.build t2 p2 updates2).returns
          (Stock.build t1 p1 updates1).returns.length 0 [] = some spread ∧
        findBestTradingWindow spread = some (entryDay, exitDay) ∧
        entryDay < (Stock.build t1 p1 updates1).priceHistory.length ∧
        entryDay < (Stock.build t2 p2 updates2).priceHistory.length ∧
        exitDay < (Stock.build t1 p1 updates1).priceHistory.length ∧
        exitDay < (Stock.build t2 p2 updates2).priceHistory.length ∧
        (Stock.build t1 p1 updates1).priceHistory[entryDay]? = some entryPrice1 ∧
        (Stock.build t2 p2 updates2).priceHistory[entryDay]? = some entryPrice2 ∧
        (Stock.build t1 p1 updates1).priceHistory[exitDay]? = some exitPrice1 ∧
        (Stock.build t2 p2 updates2).priceHistory[exitDay]? = some exitPrice2 ∧
        analyzePairs (Stock.build t1 p1 updates1) (Stock.build t2 p2 updates2) windowSize =
          some (PairsOutcome.report entryDay exitDay entryPrice1 entryPrice2 exitPrice1
            exitPrice2 ((exitPrice2 - entryPrice2) - (exitPrice1 - entryPrice1))
            (((exitPrice2 - entryPrice2) - (exitPrice1 - entryPrice1)) /
              |entryPrice1 + entryPrice2| * 252))) ∧
    ((Stock.build t1 p1 updates1).returns.length ≠ (Stock.build t2 p2 updates2).returns.length →
      analyzePairs (Stock.build t1 p1 updates1) (Stock.build t2 p2 updates2) windowSize =
        some PairsOutcome.mismatch) := by
  constructor
  · intro hlen
    obtain ⟨_, hph1, _, _⟩ := stock_build_spec t1 p1 updates1
    obtain ⟨_, hph2, _, _⟩ := stock_build_spec t2 p2 updates2
    obtain ⟨spread, hspread, hsl⟩ :=
      spreadLoop_length (Stock.build t1 p1 updates1).returns (Stock.build t2 p2 updates2).returns
        hlen (Stock.build t1 p1 updates1).returns.length 0 [] (Nat.zero_le _) (by omega)
    obtain ⟨s, _, hres, inv⟩ := findBestTradingWindow_inv spread
    have hbound : s.entry < spread.length + 1 ∧ s.exit < spread.length + 1 := by
      rcases inv.recorded with ⟨_, he, hx⟩ | ⟨h1, h2, _, _⟩
      · omega
      · omega
    simp only [List.length_nil, Nat.zero_add, Nat.sub_zero] at hsl
    have he1 : s.entry < (Stock.build t1 p1 updates1).priceHistory.length := by omega
    have he2 : s.entry < (Stock.build t2 p2 updates2).priceHistory.length := by omega
    have hx1 : s.exit < (Stock.build t1 p1 updates1).priceHistory.length := by omega
    have hx2 : s.exit < (Stock.build t2 p2 updates2).priceHistory.length := by omega
    refine ⟨spread, s.entry, s.exit, _, _, _, _, hspread, hres, he1, he2, hx1, hx2,
      List.getElem?_eq_getElem he1, List.getElem?_eq_getElem he2,
      List.getElem?_eq_getElem hx1, List.getElem?_eq_getElem hx2, ?_⟩
    unfold analyzePairs
    rw [if_neg (not_not.mpr hlen)]
    simp only [hspread, hres, List.getElem?_eq_getElem he1, List.getElem?_eq_getElem he2,
      List.getElem?_eq_getElem hx1, List.getElem?_eq_getElem hx2, Option.bind_eq_bind,
      Option.some_bind, Option.pure_def]
  · intro hne
    unfold analyzePairs
    rw [if_pos hne]

/-- Witness of C19: two stocks with two updates each, and two stocks whose
numbers of updates differ. -/
theorem analyzePairs_reads_in_bounds_witness :
    analyzePairs (Stock.build "INFY" (10 : ℚ) [11, 12]) (Stock.build "TCS" (20 : ℚ) [21, 20]) 30 =
      some (PairsOutcome.report 0 1 10 20 11 21 0 0) ∧
    analyzePairs (Stock.build "INFY" (10 : ℚ) []) (Stock.build "TCS" (20 : ℚ) []) 30 =
      some (PairsOutcome.report 0 0 10 20 10 20 0 0) ∧
    (∃ spread entryDay exitDay entryPrice1 entryPrice2 exitPrice1 exitPrice2,
        spreadLoop (Stock.build "INFY" (10 : ℚ) [11, 12]).returns
          (Stock.build "TCS" (20 : ℚ) [21, 20]).returns
          (Stock.build "INFY" (10 : ℚ) [11, 12]).returns.length 0 [] = some spread ∧
        findBestTradingWindow spread = some (entryDay, exitDay) ∧
        entryDay < (Stock.build "INFY" (10 : ℚ) [11, 12]).priceHistory.length ∧
        entryDay < (Stock.build "TCS" (20 : ℚ) [21, 20]).priceHistory.length ∧
        exitDay < (Stock.build "INFY" (10 : ℚ) [11, 12]).priceHistory.length ∧
        exitDay < (Stock.build "TCS" (20 : ℚ) [21, 20]).priceHistory.length ∧
        (Stock.build "INFY" (10 : ℚ) [11, 12]).priceHistory[entryDay]? = some entryPrice1 ∧
        (Stock.build "TCS" (20 : ℚ) [21, 20]).priceHistory[entryDay]? = some entryPrice2 ∧
        (Stock.build "INFY" (10 : ℚ) [11, 12]).priceHistory[exitDay]? = some exitPrice1 ∧
        (Stock.build "TCS" (20 : ℚ) [21, 20]).priceHistory[exitDay]? = some exitPrice2 ∧
        analyzePairs (Stock.build "INFY" (10 : ℚ) [11, 12]) (Stock.build "TCS" (20 : ℚ) [21, 20])
            30 =
          some (PairsOutcome.report entryDay exitDay entryPrice1 entryPrice2 exitPrice1
            exitPrice2 ((exitPrice2 - entryPrice2) - (exitPrice1 - entryPrice1))
            (((exitPrice2 - entryPrice2) - (exitPrice1 - entryPrice1)) /
              |entryPrice1 + entryPrice2| * 252))) ∧
    analyzePairs (Stock.build "INFY" (10 : ℚ) [11, 12]) (Stock.build "TCS" (20 : ℚ) [21]) 30 =
      some PairsOutcome.mismatch :=
  ⟨by norm_num [analyzePairs, Stock.build, Stock.new, Stock.addPriceUpdate, spreadLoop,
      findBestTradingWindow, scanLoop, scanStep, ScanState.init],
   by norm_num [analyzePairs, Stock.build, Stock.new, Stock.addPriceUpdate, spreadLoop,
      findBestTradingWindow, scanLoop, scanStep, ScanState.init],
   (analyzePairs_reads_in_bounds "INFY" "TCS" 10 20 [11, 12] [21, 20] 30).1
     (by simp [Stock.build, Stock.new, Stock.addPriceUpdate]),
   (analyzePairs_reads_in_bounds "INFY" "TCS" 10 20 [11, 12] [21] 30).2
     (by simp [Stock.build, Stock.new, Stock.addPriceUpdate])⟩

/-! ## Order book: insertion into any book -/

/-- The binary search returns on every bid sequence, sorted or not, with a
position within bounds; every `bids[mid]` it reads is within bounds. -/
theorem addBidLoop_bounds {α : Type} [LinearOrder α] (bids : List (Level α)) (price : α) :
    ∀ (fuel left right pos : Nat), left ≤ right → right ≤ bids.length → pos ≤ bids.length →
      right - left ≤ fuel →
      ∃ pos', addBidLoop bids price fuel left right pos = some pos' ∧ pos' ≤ bids.length := by
  intro fuel
  induction fuel with
  | zero =>
    intro left right pos hlr _ hp hf
    have : ¬ left < right := by omega
    exact ⟨pos, by simp [addBidLoop, this], hp⟩
  | succ n ih =>
    intro left right pos hlr hrl hp hf
    by_cases hlt : left < right
    · have hmid : left + (right - left) / 2 < bids.length := by omega
      have hget : bids[left + (right - left) / 2]? = some (bids[left + (right - left) / 2]) :=
        List.getElem?_eq_getElem hmid
      by_cases hgt : price < (bids[left + (right - left) / 2]).1
      · obtain ⟨pos', hpos', hle⟩ :=
          ih (left + (right - left) / 2 + 1) right pos (by omega) hrl hp (by omega)
        refine ⟨pos', ?_, hle⟩
        rw [addBidLoop]
        simp only [hlt, if_true, hget, gt_iff_lt, hgt]
        exact hpos'
      · obtain ⟨pos', hpos', hle⟩ :=
          ih left (left + (right - left) / 2) (left + (right - left) / 2) (by omega) (by omega)
            (by omega) (by omega)
        refine ⟨pos', ?_, hle⟩
        rw [addBidLoop]
        simp only [hlt, if_true, hget, gt_iff_lt, hgt, if_false]
        exact hpos'
    · exact ⟨pos, by simp [addBidLoop, hlt], hp⟩

/-- C20: `addBid` only inserts.  For every book, sorted or not, and every
`(p, q)`, the binary-search loop terminates with `0 ≤ pos ≤ bids.size()` and
every probed `mid` in bounds; the new bid sequence is
`old.take(pos) ++ [(p, q)] ++ old.drop(pos)`, so its length grows by exactly
one, the new level sits at `pos`, and removing it gives back the old sequence;
the ask sequence is unchanged. -/
theorem addBid_only_inserts {α : Type} [LinearOrder α] (book : OrderBook α) (p : α) (q : Int) :
    ∃ pos book', addBidPos book.bids p = some pos ∧ 0 ≤ pos ∧ pos ≤ book.bids.length ∧
      addBid book p q = some book' ∧
      book'.bids = book.bids.take pos ++ [(p, q)] ++ book.bids.drop pos ∧
      book'.bids.length = book.bids.length + 1 ∧
      book'.bids[pos]? = some (p, q) ∧
      book'.bids.eraseIdx pos = book.bids ∧
      book'.asks = book.asks := by
  obtain ⟨pos, hpos, hle⟩ :=
    addBidLoop_bounds book.bids p book.bids.length 0 book.bids.length book.bids.length
      (Nat.zero_le _) (le_refl _) (le_refl _) (by omega)
  have hins := insertIdx_eq_take_drop (p, q) pos book.bids hle
  refine ⟨pos, ⟨book.bids.insertIdx pos (p, q), book.asks⟩, hpos, Nat.zero_le _, hle, ?_, ?_, ?_,
    ?_, ?_, rfl⟩
  · have hpos2 : addBidPos book.bids p = some pos := hpos
    simp [addBid, hpos2, vectorInsert, hle]
  · simp only [hins, List.append_assoc, List.singleton_append]
  · exact List.length_insertIdx pos book.bids hle
  · simp only [hins]
    rw [List.getElem?_append_right (by rw [List.length_take]; omega)]
    simp [List.length_take, Nat.min_eq_left hle]
  · exact List.eraseIdx_insertIdx pos book.bids

end DsaQuant
